import Mathlib

/-!
Shallow embedding of the interaction resolution core of DietRx-2.0
(src/utils/interaction_engine.py, src/utils/fuzzy_matcher.py,
src/data/database.py), with theorems checking the specification's claims.

Modelling conventions:
* Python floats are modelled as exact rationals (ℚ); the constants involved
  (0.95, 0.8, 0.7, ...) are small decimal fractions, so the arithmetic of the
  confidence and score formulas is exact.
* Python strings are Lean `String`s; `str.lower()` is modelled on ASCII
  letters (every name the core handles is ASCII).
* Python's stable `list.sort(key=...)` is modelled by `List.insertionSort`
  with the non-strict key comparison, which is stable in the same sense.
* Python's `list(set(xs))` (arbitrary hash order) is modelled by an
  order-preserving deduplication; every statement proved here is insensitive
  to that representative choice.
* Exceptions never escape the functions modelled here (each `try/except` in
  the source converts failure to a fallback value); a sub-operation that can
  fail for external reasons (the database lookup, the AI call) is modelled by
  an explicit outcome parameter, and the modelled function is total.
-/

namespace DietRx

/-- Severity enum of src/utils/interaction_engine.py (`Severity`). -/
inductive Severity
  | safe
  | caution
  | avoid
deriving DecidableEq, Repr

/-- InteractionType enum of src/utils/interaction_engine.py. -/
inductive InteractionType
  | absorption
  | metabolism
  | effectiveness
  | toxicity
  | timing
deriving DecidableEq, Repr

/-- One interaction finding (`InteractionResult` dataclass). -/
structure InteractionResult where
  medication : String
  food : String
  severity : Severity
  interaction_type : InteractionType
  mechanism : String
  clinical_effect : String
  timing_recommendation : String
  confidence : ℚ
  evidence_level : String
  source : String
deriving DecidableEq, Repr

/-- AI analysis result, reduced to the two pieces `analyze_interactions`
reads from it (the enhanced summary it prepends and the advice list it
appends). -/
structure AIAnalysisResult where
  enhanced_summary : String
  advice : List String
deriving DecidableEq, Repr

/-- Outcome of the AI-analysis call inside `analyze_interactions`:
it returns a result, returns `None`, or raises.  (When it raises, the
handler at interaction_engine.py:136 references the unimported name `st`,
so the `NameError` escapes to the outer handler at line 153 and the
whole analysis returns the `GracefulDegradation` fallback.) -/
inductive AIOutcome
  | ok (result : AIAnalysisResult)
  | noResult
  | raises
deriving DecidableEq, Repr

/-- The record returned by `analyze_interactions` (`AnalysisResults`
dataclass).  The wall-clock `analysis_timestamp` field is omitted: no claim
mentions it and it carries no logic. -/
structure AnalysisResults where
  interactions : List InteractionResult
  medications_analyzed : List String
  foods_analyzed : List String
  overall_risk_level : Severity
  summary : String
  recommendations : List String
  confidence_score : ℚ
  ai_analysis : Option AIAnalysisResult
deriving DecidableEq, Repr

/-- Sort key used at interaction_engine.py:224 (`severity_order`):
avoid 0, caution 1, safe 2. -/
def severityOrder : Severity → Nat
  | .avoid => 0
  | .caution => 1
  | .safe => 2

/-- The deduplication key at interaction_engine.py:218: the exact,
case-sensitive (medication, food) pair. -/
def pairKey (i : InteractionResult) : String × String :=
  (i.medication, i.food)

/-- The dedup loop of `_combine_interactions` (interaction_engine.py:214-221):
keep the first occurrence of every exact (medication, food) pair. -/
def dedupFirstAux : List InteractionResult → List (String × String) → List InteractionResult
  | [], _ => []
  | x :: xs, seen =>
    if pairKey x ∈ seen then dedupFirstAux xs seen
    else x :: dedupFirstAux xs (pairKey x :: seen)

/-- `InteractionEngine._combine_interactions`: concatenate, dedup by exact
pair keeping the first occurrence, then stably sort by severity rank only. -/
def combine_interactions (direct fuzzy : List InteractionResult) : List InteractionResult :=
  List.insertionSort (fun a b => severityOrder a.severity ≤ severityOrder b.severity)
    (dedupFirstAux (direct ++ fuzzy) [])

/-- `InteractionEngine._calculate_overall_risk` (interaction_engine.py:229-242). -/
def calculate_overall_risk (interactions : List InteractionResult) : Severity :=
  if interactions = [] then .safe
  else if interactions.any (fun i => decide (i.severity = Severity.avoid)) then .avoid
  else if interactions.any (fun i => decide (i.severity = Severity.caution)) then .caution
  else .safe

/-- `InteractionEngine._generate_summary` (interaction_engine.py:244-267). -/
def generate_summary (interactions : List InteractionResult)
    (medications foods : List String) : String :=
  if interactions = [] then
    "No significant interactions found between " ++ toString medications.length ++
      " medications and " ++ toString foods.length ++ " foods."
  else
    let avoidCount := interactions.countP (fun i => decide (i.severity = Severity.avoid))
    let cautionCount := interactions.countP (fun i => decide (i.severity = Severity.caution))
    let safeCount := interactions.countP (fun i => decide (i.severity = Severity.safe))
    let parts :=
      (if 0 < avoidCount then [toString avoidCount ++ " serious interaction(s) to avoid"] else []) ++
      (if 0 < cautionCount then [toString cautionCount ++ " interaction(s) requiring caution"] else []) ++
      (if 0 < safeCount then [toString safeCount ++ " low-risk interaction(s)"] else [])
    "Found " ++ toString interactions.length ++ " interaction(s): " ++
      String.intercalate ", " parts ++ "."

/-- The two generic strings `_generate_recommendations` returns for an empty
findings list (interaction_engine.py:274-275). -/
def noPrecautionsLine : String :=
  "No specific precautions needed based on known interactions."

/-- Closing line of the empty-findings case (interaction_engine.py:275). -/
def consultGeneralLine : String :=
  "Always consult your healthcare provider about medication and diet interactions."

/-- Closing line always appended in the non-empty case (interaction_engine.py:295). -/
def consultClosingLine : String :=
  "**Always consult your healthcare provider** before making changes to medications or diet."

/-- A string is a consult-your-provider statement when it is one of the two
closing provider-consultation lines the engine emits. -/
def isConsultStatement (s : String) : Prop :=
  s = consultGeneralLine ∨ s = consultClosingLine

/-- `InteractionEngine._generate_recommendations` (interaction_engine.py:269-297). -/
def generate_recommendations (interactions : List InteractionResult) : List String :=
  if interactions = [] then [noPrecautionsLine, consultGeneralLine]
  else
    let avoidInteractions := interactions.filter (fun i => decide (i.severity = Severity.avoid))
    let cautionInteractions := interactions.filter (fun i => decide (i.severity = Severity.caution))
    let avoidBlock :=
      if avoidInteractions = [] then []
      else "**Serious Interactions - Action Required:**" ::
        (avoidInteractions.take 3).map (fun i =>
          "   • Avoid " ++ i.food ++ " while taking " ++ i.medication)
    let cautionBlock :=
      if cautionInteractions = [] then []
      else "**Interactions Requiring Caution:**" ::
        (cautionInteractions.take 3).map (fun i =>
          if i.timing_recommendation ≠ "" then "   • " ++ i.timing_recommendation
          else "   • Monitor " ++ i.medication ++ " + " ++ i.food ++ " combination")
    avoidBlock ++ cautionBlock ++ [consultClosingLine]

/-- Per-finding confidence from the evidence level
(interaction_engine.py:307-313): 0.95 established, 0.8 probable, 0.6 otherwise. -/
def evidenceConfidence (e : String) : ℚ :=
  if e = "established" then 19/20 else if e = "probable" then 4/5 else 3/5

/-- Cardinality of `set(i.medication ...) | set(i.food ...)`
(interaction_engine.py:319-320): the number of distinct medication or food
names appearing in the findings. -/
def distinctNamesIn (interactions : List InteractionResult) : Nat :=
  ((interactions.map (fun i => i.medication)) ++ (interactions.map (fun i => i.food))).dedup.length

/-- `InteractionEngine._calculate_confidence` (interaction_engine.py:299-325).
Returns 0.8 outright when there are no findings; otherwise blends the mean
per-finding confidence (weight 0.7) with the coverage ratio (weight 0.3) and
clamps the result at 1.0. -/
def calculate_confidence (interactions : List InteractionResult)
    (medications foods : List String) : ℚ :=
  if interactions = [] then 4/5
  else
    let total : ℚ := (interactions.map (fun i => evidenceConfidence i.evidence_level)).sum
    let averageConfidence := total / (interactions.length : ℚ)
    let totalItems := medications.length + foods.length
    let coverage : ℚ :=
      if 0 < totalItems then (distinctNamesIn interactions : ℚ) / (totalItems : ℚ) else 0
    min (averageConfidence * (7/10) + coverage * (3/10)) 1

/-- The overall-confidence formula exactly as claim C4 states it:
0.7 × M + 0.3 × C, with M the mean per-finding confidence or 0.8 when there
are no findings, and C the distinct-names coverage (0 when there are no
input names).  Stated from the claim's words, to be compared with
`calculate_confidence`. -/
def claimConfidenceFormula (interactions : List InteractionResult)
    (medications foods : List String) : ℚ :=
  let meanConf : ℚ :=
    if interactions = [] then 4/5
    else (interactions.map (fun i => evidenceConfidence i.evidence_level)).sum /
      (interactions.length : ℚ)
  let totalNames := medications.length + foods.length
  let coverage : ℚ :=
    if totalNames = 0 then 0 else (distinctNamesIn interactions : ℚ) / (totalNames : ℚ)
  (7/10) * meanConf + (3/10) * coverage

/-- `ErrorHandler.validate_user_input` (src/utils/error_handler.py:54-70). -/
def validate_user_input (medications foods : List String) : Bool × String :=
  if medications = [] ∧ foods = [] then
    (false, "Please select at least one medication or food item.")
  else if 20 < medications.length then
    (false, "Too many medications selected. Please limit to 20 items for optimal analysis.")
  else if 30 < foods.length then
    (false, "Too many foods selected. Please limit to 30 items for optimal analysis.")
  else if 40 < medications.length + foods.length then
    (false, "Too many total items selected. Please reduce the selection for better analysis.")
  else (true, "Input validation passed")

/-- `GracefulDegradation.fallback_interaction_analysis`
(src/utils/error_handler.py:109-120): summary, fixed recommendations,
confidence 0.5. -/
def fallback_summary (medications foods : List String) : String :=
  "Basic analysis completed for " ++ toString medications.length ++
    " medications and " ++ toString foods.length ++ " foods."

/-- Fixed recommendation strings of the fallback analysis. -/
def fallback_recommendations : List String :=
  ["⚠️ Advanced analysis temporarily unavailable",
   "📞 Please consult your healthcare provider about these combinations",
   "💡 Monitor for any unusual symptoms when taking medications with food"]

/-- `GracefulDegradation.minimal_ai_analysis` summary
(src/utils/error_handler.py:123-147), used when the AI returns `None`. -/
def minimal_ai_summary (interactions : List InteractionResult) : String :=
  if interactions = [] then "No significant interactions detected."
  else
    let criticalCount := interactions.countP (fun i => decide (i.severity = Severity.avoid))
    if 0 < criticalCount then
      "⚠️ " ++ toString criticalCount ++ " critical interaction(s) require immediate attention."
    else "Some interactions detected that may require monitoring."

/-- Warnings list of `minimal_ai_analysis`: empty for no interactions,
otherwise the fixed unavailability notice. -/
def minimal_ai_warnings (interactions : List InteractionResult) : List String :=
  if interactions = [] then []
  else ["Advanced AI analysis temporarily unavailable"]

/-- `InteractionEngine.analyze_interactions` (interaction_engine.py:58-168).

`dbOutcome` is the outcome of the guarded database lookup
(`ErrorHandler.safe_execute` of `_find_direct_interactions`): `some rows` on
success, `none` when it raised (the fallback value is the empty list).
`_find_fuzzy_interactions` always returns the empty list (lines 194-206).
`ai` is the outcome of the AI-analysis block; when the AI call raises, the
handler itself raises `NameError` (unimported `st`), so control reaches the
outer handler and the degraded CAUTION/0.5 result is returned. -/
def analyze_interactions (medications foods : List String)
    (dbOutcome : Option (List InteractionResult)) (ai : AIOutcome) : AnalysisResults :=
  let v := validate_user_input medications foods
  if v.1 = false then
    { interactions := []
      medications_analyzed := medications
      foods_analyzed := foods
      overall_risk_level := Severity.safe
      summary := "Input validation failed: " ++ v.2
      recommendations := ["Please adjust your selections and try again."]
      confidence_score := 0
      ai_analysis := none }
  else
    let directInteractions := dbOutcome.getD []
    let allInteractions := combine_interactions directInteractions []
    let overallRisk := calculate_overall_risk allInteractions
    let baseSummary := generate_summary allInteractions medications foods
    let baseRecommendations := generate_recommendations allInteractions
    let confidence := calculate_confidence allInteractions medications foods
    match ai with
    | .raises =>
      { interactions := []
        medications_analyzed := medications
        foods_analyzed := foods
        overall_risk_level := Severity.caution
        summary := fallback_summary medications foods
        recommendations := fallback_recommendations
        confidence_score := 1/2
        ai_analysis := none }
    | .ok result =>
      { interactions := allInteractions
        medications_analyzed := medications
        foods_analyzed := foods
        overall_risk_level := overallRisk
        summary := result.enhanced_summary ++ "\n\n" ++ baseSummary
        recommendations := baseRecommendations ++ result.advice
        confidence_score := confidence
        ai_analysis := some result }
    | .noResult =>
      { interactions := allInteractions
        medications_analyzed := medications
        foods_analyzed := foods
        overall_risk_level := overallRisk
        summary := minimal_ai_summary allInteractions ++ "\n\n" ++ baseSummary
        recommendations := baseRecommendations ++ minimal_ai_warnings allInteractions
        confidence_score := confidence
        ai_analysis := none }

/-! ## Database lookup (src/data/database.py, `find_interactions`) -/

/-- Python `str.lower()` on ASCII text, written as a structural map over the
character list (so that it evaluates by kernel reduction). -/
def lowerStr (s : String) : String := ⟨s.data.map Char.toLower⟩

/-- A row of the `known_interactions` table, with the columns
`_find_direct_interactions` reads.  Severity is kept as the enum: a row whose
severity string is not one of safe/caution/avoid makes `Severity(...)` raise
at interaction_engine.py:181, which `safe_execute` converts to the empty
direct-interaction list — the `dbOutcome = none` case of the engine model. -/
structure DBRow where
  medication_name : String
  food_name : String
  severity : Severity
  interaction_type : InteractionType
  mechanism : String
  clinical_effect : String
  timing_recommendation : String
  evidence_level : String
  source : String
deriving DecidableEq, Repr

/-- The `CASE severity WHEN 'avoid' THEN 1 WHEN 'caution' THEN 2 WHEN 'safe'
THEN 3 END` rank of the SQL ORDER BY in `find_interactions`
(database.py:428-433). -/
def sqlSeverityRank : Severity → Nat
  | .avoid => 1
  | .caution => 2
  | .safe => 3

/-- Sort key of the SQL `ORDER BY severity-rank, medication_name, food_name`:
a lexicographic triple. -/
def rowKey (r : DBRow) : Lex (Nat × Lex (String × String)) :=
  toLex (sqlSeverityRank r.severity, toLex (r.medication_name, r.food_name))

/-- Row order produced by the SQL ORDER BY clause of `find_interactions`. -/
def rowLex (a b : DBRow) : Prop := rowKey a ≤ rowKey b

instance : DecidableRel rowLex := fun a b =>
  inferInstanceAs (Decidable (rowKey a ≤ rowKey b))

instance : IsTotal DBRow rowLex := ⟨fun a b => le_total (rowKey a) (rowKey b)⟩

instance : IsTrans DBRow rowLex := ⟨fun _ _ _ h1 h2 => le_trans h1 h2⟩

/-- `DatabaseManager.find_interactions` (database.py:412-447): keep the rows
whose lower-cased medication and food names occur (lower-cased) in the two
input lists, ordered by severity rank (avoid, caution, safe), then
medication name, then food name.  With an empty medication or food list the
generated SQL contains an empty `IN ()` clause, which is a SQLite syntax
error; the `except sqlite3.Error` handler then returns the empty list. -/
def find_interactions (db : List DBRow) (medications foods : List String) : List DBRow :=
  if medications = [] ∨ foods = [] then []
  else
    List.insertionSort rowLex
      (db.filter (fun r =>
        (medications.map lowerStr).contains (lowerStr r.medication_name) &&
        (foods.map lowerStr).contains (lowerStr r.food_name)))

/-- Conversion of a fetched row to an `InteractionResult`
(`_find_direct_interactions`, interaction_engine.py:177-190): database
matches get confidence 0.95; the `.get(...)` column defaults are irrelevant
here because a `DBRow` is total. -/
def toInteractionResult (r : DBRow) : InteractionResult :=
  { medication := r.medication_name
    food := r.food_name
    severity := r.severity
    interaction_type := r.interaction_type
    mechanism := r.mechanism
    clinical_effect := r.clinical_effect
    timing_recommendation := r.timing_recommendation
    confidence := 19/20
    evidence_level := r.evidence_level
    source := r.source }

/-- `InteractionEngine._find_direct_interactions` on a successful lookup. -/
def find_direct_interactions (db : List DBRow) (medications foods : List String) :
    List InteractionResult :=
  (find_interactions db medications foods).map toInteractionResult

/-- Sort key for findings corresponding to `rowKey`: severity rank
(avoid 0, caution 1, safe 2), then medication, then food. -/
def resKey (i : InteractionResult) : Lex (Nat × Lex (String × String)) :=
  toLex (severityOrder i.severity, toLex (i.medication, i.food))

/-- Findings order claimed by the spec: non-decreasing severity rank, then
medication name, then food name. -/
def resLex (a b : InteractionResult) : Prop := resKey a ≤ resKey b

/-- The full analysis entry point with the database lookup composed in:
`dbFails` is true when the guarded lookup raised (fallback to no direct
interactions). -/
def analyze_with_db (db : List DBRow) (medications foods : List String)
    (dbFails : Bool) (ai : AIOutcome) : AnalysisResults :=
  analyze_interactions medications foods
    (if dbFails then none else some (find_direct_interactions db medications foods)) ai

/-! ## Name cleaning (src/utils/fuzzy_matcher.py, `clean_string`)

The six `re.sub` passes of `clean_string` are modelled as character-list
transformations replicating the regex semantics (leftmost non-overlapping
matches, greedy quantifiers with the backtracking each pattern actually
allows, `\b` word boundaries).  Character classes are modelled on ASCII. -/

/-- Python regex `\s` on ASCII: space (32), tab (9), newline (10), carriage
return (13), vertical tab (11), form feed (12), identified by code point. -/
def isWsChar (c : Char) : Bool :=
  c.toNat = 32 || c.toNat = 9 || c.toNat = 10 || c.toNat = 13 ||
    c.toNat = 11 || c.toNat = 12

/-- Python regex `\w` on ASCII: letters, digits, underscore. -/
def isWordChar (c : Char) : Bool := c.isAlphanum || c == '_'

/-- Characters kept by the final `[^\w\s\-]` removal pass. -/
def allowedChar (c : Char) : Bool := isWordChar c || isWsChar c || c == '-'

/-- Python `str.strip()`: drop leading and trailing whitespace. -/
def stripChars (l : List Char) : List Char :=
  ((l.dropWhile isWsChar).reverse.dropWhile isWsChar).reverse

/-- A `\b` word boundary holds after a match ending here. -/
def wordBoundary : List Char → Bool
  | [] => true
  | c :: _ => !(isWordChar c)

/-- Regex alternation over literal words followed by `\b`, tried in pattern
order (an alternative that matches but fails the boundary lets the next one
try, as regex backtracking does).  Returns the suffix after the consumed
word. -/
def matchAlt : List (List Char) → List Char → Option (List Char)
  | [], _ => none
  | u :: us, l =>
    if u.isPrefixOf l then
      let rest := l.drop u.length
      if wordBoundary rest then some rest else matchAlt us l
    else matchAlt us l

/-- Alternatives of `(mg|ml|g|mcg|units?)` in regex order (the greedy `s?`
makes `units` try before `unit`). -/
def unitWords : List (List Char) :=
  [['m','g'], ['m','l'], ['g'], ['m','c','g'],
   ['u','n','i','t','s'], ['u','n','i','t']]

/-- Alternatives of `(tablet|capsule|pills?|caps?|oral|injection)` in regex
order. -/
def formWords : List (List Char) :=
  [['t','a','b','l','e','t'], ['c','a','p','s','u','l','e'],
   ['p','i','l','l','s'], ['p','i','l','l'], ['c','a','p','s'], ['c','a','p'],
   ['o','r','a','l'], ['i','n','j','e','c','t','i','o','n']]

/-- Match `\s+\d+(\.\d+)?\s*(mg|ml|g|mcg|units?)\b` at the head of the list.
The `\s+`, `\d+` and `\s*` runs are maximal (shorter runs leave a character
the next regex element cannot match), and when the optional fraction is
present but the unit then fails, backtracking to the fraction-less parse
also fails (the unit would have to match at the dot), so the fraction is
committed when present. -/
def matchDosage (l : List Char) : Option (List Char) :=
  let ws := l.takeWhile isWsChar
  if ws = [] then none
  else
    let afterWs := l.dropWhile isWsChar
    let ds := afterWs.takeWhile Char.isDigit
    if ds = [] then none
    else
      let afterDs := afterWs.dropWhile Char.isDigit
      let afterNum :=
        match afterDs with
        | '.' :: rest => if rest.takeWhile Char.isDigit = [] then none
            else some (rest.dropWhile Char.isDigit)
        | _ => none
      match afterNum with
      | some afterF => matchAlt unitWords (afterF.dropWhile isWsChar)
      | none => matchAlt unitWords (afterDs.dropWhile isWsChar)

/-- Match `\s+(tablet|capsule|pills?|caps?|oral|injection)\b` at the head. -/
def matchForm (l : List Char) : Option (List Char) :=
  if l.takeWhile isWsChar = [] then none
  else matchAlt formWords (l.dropWhile isWsChar)

/-- Lazy scan of `.*?\]` (a dot does not match a newline). -/
def scanToClose : List Char → Option (List Char)
  | [] => none
  | c :: cs => if c = ']' then some cs else if c = '\n' then none else scanToClose cs

/-- Match `\s+\[.*?\]` at the head. -/
def matchBracket (l : List Char) : Option (List Char) :=
  if l.takeWhile isWsChar = [] then none
  else
    match l.dropWhile isWsChar with
    | '[' :: rest => scanToClose rest
    | _ => none

/-- One `re.sub(pattern, '', text)` pass: scan left to right, at each
position try the matcher; on a match drop the matched span and continue
after it, otherwise keep the character.  Fuel-driven so that it evaluates by
kernel reduction; `fuel = l.length` always suffices because a match consumes
at least one character. -/
def applySubAux (m : List Char → Option (List Char)) : Nat → List Char → List Char
  | 0, l => l
  | _ + 1, [] => []
  | fuel + 1, c :: cs =>
    match m (c :: cs) with
    | some rest => applySubAux m fuel rest
    | none => c :: applySubAux m fuel cs

/-- Run one deletion-substitution pass over the whole list. -/
def applySub (m : List Char → Option (List Char)) (l : List Char) : List Char :=
  applySubAux m l.length l

/-- Match `^(generic|brand)\s+` (anchored) and strip it. -/
def applyLeadQualifier (l : List Char) : List Char :=
  let tryWord : List Char → Option (List Char) := fun w =>
    if w.isPrefixOf l then
      let rest := l.drop w.length
      if rest.takeWhile isWsChar = [] then none
      else some (rest.dropWhile isWsChar)
    else none
  match tryWord ['g','e','n','e','r','i','c'] with
  | some r => r
  | none =>
    match tryWord ['b','r','a','n','d'] with
    | some r => r
    | none => l

/-- `re.sub(r'\s+', ' ', text)`: collapse whitespace runs to single spaces. -/
def collapseWsAux : Bool → List Char → List Char
  | _, [] => []
  | prevWs, c :: cs =>
    if isWsChar c then
      if prevWs then collapseWsAux true cs else ' ' :: collapseWsAux true cs
    else c :: collapseWsAux false cs

/-- Whitespace collapsing entry point. -/
def collapseWs (l : List Char) : List Char := collapseWsAux false l

/-- The `[^\w\s\-]` removal pass. -/
def filterAllowed (l : List Char) : List Char := l.filter allowedChar

/-- `FuzzyMatcher.clean_string` (fuzzy_matcher.py:25-45) on character
lists: lowercase and strip, remove dosage tokens, remove form words, remove
bracketed annotations, strip a leading generic/brand qualifier, collapse
whitespace, remove disallowed characters, strip. -/
def cleanChars (l : List Char) : List Char :=
  if l = [] then []
  else
    stripChars (filterAllowed (collapseWs (applyLeadQualifier
      (applySub matchBracket (applySub matchForm (applySub matchDosage
        (stripChars (l.map Char.toLower))))))))

/-- `FuzzyMatcher.clean_string` on strings. -/
def clean_string (s : String) : String := ⟨cleanChars s.data⟩

/-! ## Fuzzy matching (src/utils/fuzzy_matcher.py)

The rapidfuzz scorers `fuzz.ratio`, `fuzz.partial_ratio`,
`fuzz.token_sort_ratio`, `fuzz.token_set_ratio` and `fuzz.WRatio` are
modelled from their documented algorithms (normalized InDel similarity and
its partial/token variants, case-sensitive, no default processor as in
rapidfuzz ≥ 2).  Scores are exact rationals on the 0-100 scale. -/

/-- Python `needle in hay` for strings: contiguous substring test. -/
def containsSub (hay needle : List Char) : Bool :=
  hay.tails.any (fun t => needle.isPrefixOf t)

/-- Python `str.replace(old, new)`: replace every non-overlapping occurrence
left to right.  Fuel-driven for kernel evaluation (`old` is non-empty at
every call site of the source). -/
def pyReplaceAux (old new : List Char) : Nat → List Char → List Char
  | 0, l => l
  | _ + 1, [] => []
  | fuel + 1, c :: cs =>
    if old.isPrefixOf (c :: cs) then new ++ pyReplaceAux old new fuel ((c :: cs).drop old.length)
    else c :: pyReplaceAux old new fuel cs

/-- Entry point of the replace model. -/
def pyReplace (l old new : List Char) : List Char := pyReplaceAux old new l.length l

/-- The `common_typos` dict of `FuzzyMatcher.__init__`, in insertion order. -/
def commonTypos : List (List Char × List Char) :=
  [(['p','h'], ['f']),
   (['t','i','o','n'], ['s','h','u','n']),
   (['q','u','e'], ['k']),
   (['o','u','g','h'], ['u','f','f'])]

/-- The `common_endings` dict of `FuzzyMatcher.__init__`, in insertion order. -/
def commonEndings : List (List Char × List Char) :=
  [(['i','n'], ['e','n']),
   (['i','n','e'], ['e','e','n']),
   (['a','n'], ['e','n'])]

/-- `FuzzyMatcher.generate_typo_variations` (fuzzy_matcher.py:47-65): apply
each typo substitution in both directions when its pattern occurs, then each
ending swap when the text ends with it. -/
def generate_typo_variations (text : List Char) : List (List Char) :=
  (commonTypos.flatMap (fun p =>
    (if containsSub text p.1 then [pyReplace text p.1 p.2] else []) ++
    (if containsSub text p.2 then [pyReplace text p.2 p.1] else []))) ++
  (commonEndings.flatMap (fun p =>
    (if p.1.isSuffixOf text then [text.take (text.length - p.1.length) ++ p.2] else []) ++
    (if p.2.isSuffixOf text then [text.take (text.length - p.2.length) ++ p.1] else [])))

/-- Order-preserving deduplication standing in for Python's `list(set(...))`
(whose enumeration order is hash-dependent); the statements proved below are
insensitive to this representative choice. -/
def dedupKeepFirst {α : Type} [DecidableEq α] : List α → List α
  | [] => []
  | x :: xs => x :: (dedupKeepFirst xs).filter (fun y => y ≠ x)

/-- `FuzzyMatcher.generate_variations` (fuzzy_matcher.py:67-103): the text,
its cleaned form, typo variations of both, a plural/singular toggle, and
hyphen/space substitutions, deduplicated. -/
def generate_variations (text : List Char) : List (List Char) :=
  if text = [] then []
  else
    let cleaned := cleanChars text
    let base := [text] ++ (if cleaned ≠ text then [cleaned] else [])
    let typos := generate_typo_variations text
    let cleanedTypos := if cleaned ≠ text then generate_typo_variations cleaned else []
    let plural :=
      if text.getLast? = some 's' ∧ 3 < text.length then [text.dropLast]
      else if ¬ (text.getLast? = some 's') then [text ++ ['s']]
      else []
    let hyphens :=
      if containsSub text ['-'] then
        [pyReplace text ['-'] [' '], pyReplace text ['-'] []]
      else []
    let spaces :=
      if containsSub text [' '] then
        [pyReplace text [' '] [], pyReplace text [' '] ['-']]
      else []
    dedupKeepFirst (base ++ typos ++ cleanedTypos ++ plural ++ hyphens ++ spaces)

/-- Longest-common-subsequence length by fuel-driven naive recursion (kernel
reducible); fuel `|a| + |b|` always suffices. -/
def lcsAux : Nat → List Char → List Char → Nat
  | 0, _, _ => 0
  | _ + 1, [], _ => 0
  | _ + 1, _ :: _, [] => 0
  | fuel + 1, a :: as, b :: bs =>
    if a = b then lcsAux fuel as bs + 1
    else max (lcsAux fuel (a :: as) bs) (lcsAux fuel as (b :: bs))

/-- Longest common subsequence of two character lists. -/
def lcsLen (a b : List Char) : Nat := lcsAux (a.length + b.length) a b

/-- rapidfuzz `fuzz.ratio`: normalized InDel similarity on the 0-100 scale,
`100 · (2 · LCS(a,b)) / (|a| + |b|)`, and 100 when both strings are empty. -/
def indelSim (a b : List Char) : ℚ :=
  if a.length + b.length = 0 then 100
  else (200 * (lcsLen a b : ℚ)) / ((a.length + b.length : ℕ) : ℚ)

/-- Whitespace tokenization (Python `str.split()`). -/
def splitTokensAux : List Char → List Char → List (List Char)
  | [], acc => if acc = [] then [] else [acc.reverse]
  | c :: cs, acc =>
    if isWsChar c then
      if acc = [] then splitTokensAux cs [] else acc.reverse :: splitTokensAux cs []
    else splitTokensAux cs (c :: acc)

/-- Tokens of a string, split on whitespace runs. -/
def splitTokens (l : List Char) : List (List Char) := splitTokensAux l []

/-- Join tokens with single spaces. -/
def joinTokens : List (List Char) → List Char
  | [] => []
  | [t] => t
  | t :: ts => t ++ ' ' :: joinTokens ts

/-- Tokens sorted lexicographically (Python `sorted`) and re-joined: the
normal form compared by the token_sort measures. -/
def tokenSortNorm (l : List Char) : List Char :=
  joinTokens (List.insertionSort (fun a b : List Char => a ≤ b) (splitTokens l))

/-- rapidfuzz `fuzz.token_sort_ratio`: the ratio of the sorted-token normal
forms. -/
def tokenSortSim (a b : List Char) : ℚ :=
  indelSim (tokenSortNorm a) (tokenSortNorm b)

/-- The three comparison strings of the token_set measures: sorted token-set
intersection, and the intersection extended by each side's sorted
difference. -/
def tokenSetStrings (a b : List Char) : List Char × List Char × List Char :=
  let ta := dedupKeepFirst (splitTokens a)
  let tb := dedupKeepFirst (splitTokens b)
  let sortL : List (List Char) → List (List Char) :=
    List.insertionSort (fun x y : List Char => x ≤ y)
  let inter := sortL (ta.filter (fun t => t ∈ tb))
  let diffAB := sortL (ta.filter (fun t => t ∉ tb))
  let diffBA := sortL (tb.filter (fun t => t ∉ ta))
  (joinTokens inter, joinTokens (inter ++ diffAB), joinTokens (inter ++ diffBA))

/-- rapidfuzz `fuzz.token_set_ratio`: best ratio among the three token-set
comparison strings. -/
def tokenSetSim (a b : List Char) : ℚ :=
  let s := tokenSetStrings a b
  max (indelSim s.1 s.2.1) (max (indelSim s.1 s.2.2) (indelSim s.2.1 s.2.2))

/-- Contiguous windows of length `n` of a list. -/
def windowsOfLen (n : Nat) (l : List Char) : List (List Char) :=
  l.tails.filterMap (fun t => if n ≤ t.length then some (t.take n) else none)

/-- The alignments rapidfuzz's partial_ratio scores a needle of length `m`
against in the longer string `t`: the truncated left-edge alignments (the
prefixes `t[:j]` for 1 ≤ j < m), every contiguous window of length `m`, and
the truncated right-edge alignments (the suffixes `t[n-j:]` for
1 ≤ j < m). -/
def partialWindows (m : Nat) (t : List Char) : List (List Char) :=
  ((List.range m).drop 1).map (fun j => t.take j) ++
    windowsOfLen m t ++
    ((List.range m).drop 1).map (fun j => t.drop (t.length - j))

/-- rapidfuzz `fuzz.partial_ratio`: the best `fuzz.ratio` of the shorter
string against any alignment in the longer string — the full-length windows
and the truncated edge alignments where the needle overhangs either end
(the optimal local alignment rapidfuzz searches for). -/
def bestWindowSim (a b : List Char) : ℚ :=
  let s := if a.length ≤ b.length then a else b
  let t := if a.length ≤ b.length then b else a
  ((partialWindows s.length t).map (fun w => indelSim s w)).foldl max 0

/-- rapidfuzz `fuzz.partial_token_sort_ratio`. -/
def partialTokenSortSim (a b : List Char) : ℚ :=
  bestWindowSim (tokenSortNorm a) (tokenSortNorm b)

/-- rapidfuzz `fuzz.partial_token_set_ratio`. -/
def partialTokenSetSim (a b : List Char) : ℚ :=
  let s := tokenSetStrings a b
  max (bestWindowSim s.1 s.2.1) (max (bestWindowSim s.1 s.2.2) (bestWindowSim s.2.1 s.2.2))

/-- rapidfuzz `fuzz.WRatio`, the scorer used by `process.extract`: 0 when a
side is empty; otherwise the full ratio improved by the token ratio scaled
by 0.95, and — when the lengths differ by a factor of 1.5 or more — by the
partial measures scaled by 0.9 (length factor < 8) or 0.6. -/
def wScore (a b : List Char) : ℚ :=
  if a.length = 0 ∨ b.length = 0 then 0
  else
    let r := indelSim a b
    let tokenR := max (tokenSortSim a b) (tokenSetSim a b)
    if ((max a.length b.length : ℕ) : ℚ) < (3/2) * ((min a.length b.length : ℕ) : ℚ) then
      max r (tokenR * (19/20))
    else
      let partialScale : ℚ :=
        if ((max a.length b.length : ℕ) : ℚ) < 8 * ((min a.length b.length : ℕ) : ℚ) then 9/10
        else 3/5
      let partialTokenR := max (partialTokenSortSim a b) (partialTokenSetSim a b)
      max r (max (bestWindowSim a b * partialScale) (partialTokenR * partialScale * (19/20)))

/-- Mismatch count of `calculate_enhanced_score` (fuzzy_matcher.py:135-139):
positions in `range(max_len)` that fall past either cleaned string or where
the characters differ. -/
def diffCount (qc cc : List Char) : Nat :=
  (List.range (max qc.length cc.length)).countP (fun i =>
    decide (qc.length ≤ i) || decide (cc.length ≤ i) ||
      decide (qc.getD i ' ' ≠ cc.getD i ' '))

/-- `FuzzyMatcher.calculate_enhanced_score` (fuzzy_matcher.py:105-144): the
0.4/0.2/0.2/0.2 weighted fusion of the four rapidfuzz measures, then the
+15 "-in"/"-en" suffix boost, the +10 "ph"/"f" substitution boost and the
+10 near-match boost, each capped at 100. -/
def calculate_enhanced_score (query candidate : List Char) : ℚ :=
  let r1 := indelSim query candidate
  let p1 := bestWindowSim query candidate
  let ts := tokenSortSim query candidate
  let tse := tokenSetSim query candidate
  let base := r1 * (2/5) + p1 * (1/5) + ts * (1/5) + tse * (1/5)
  let qc := cleanChars (query.map Char.toLower)
  let cc := cleanChars (candidate.map Char.toLower)
  let b1 :=
    if ['i','n'].isSuffixOf qc ∧ ['e','n'].isSuffixOf cc ∧
        qc.take (qc.length - 2) = cc.take (cc.length - 2) then
      min 100 (base + 15)
    else base
  let b2 :=
    if containsSub cc ['p','h'] ∧ containsSub qc ['f'] ∧
        pyReplace cc ['p','h'] ['f'] = qc then
      min 100 (b1 + 10)
    else b1
  if ((qc.length : Int) - (cc.length : Int)).natAbs ≤ 1 ∧ 0 < max qc.length cc.length ∧
      diffCount qc cc ≤ 2 then
    min 100 (b2 + 10)
  else b2

/-- Descending stable ranking by score (Python's stable `sort` with
`reverse=True`, and rapidfuzz's ranking with ties in candidate order). -/
def sortByScoreDesc (l : List (String × ℚ)) : List (String × ℚ) :=
  List.insertionSort (fun a b : String × ℚ => b.2 ≤ a.2) l

/-- rapidfuzz `process.extract(query, candidates, scorer=fuzz.WRatio, limit,
score_cutoff)`: score every candidate, drop scores below the cutoff, rank by
descending score and keep `limit`. -/
def extractWRatio (v : String) (candidates : List String) (lim : Nat) (cutoff : ℚ) :
    List (String × ℚ) :=
  (sortByScoreDesc ((candidates.map (fun c => (c, wScore v.data c.data))).filter
    (fun p => decide (cutoff ≤ p.2)))).take lim

/-- One step of the best-score dictionary update of find_best_matches
(fuzzy_matcher.py:188-191): `if match not in unique or score > unique[match]`. -/
def updateMax : List (String × ℚ) → String × ℚ → List (String × ℚ)
  | [], p => [p]
  | (k, v) :: rest, p =>
    if k = p.1 then (if v < p.2 then (k, p.2) else (k, v)) :: rest
    else (k, v) :: updateMax rest p

/-- The per-candidate maximum score, in first-insertion order. -/
def uniqueMax (ps : List (String × ℚ)) : List (String × ℚ) :=
  ps.foldl updateMax []

/-- `FuzzyMatcher.find_best_matches` (fuzzy_matcher.py:146-201) with the
default threshold 80, so the derived score cutoff is max(50, 80 − 30) = 50:
merge the `process.extract` results over every non-empty query variation
with the enhanced scores of all candidates, keep each candidate's best
score, rank descending and return the top `limit`. -/
def find_best_matches (query : String) (candidates : List String) (limit : Nat) :
    List (String × ℚ) :=
  if query = "" ∨ candidates = [] then []
  else
    let cutoff : ℚ := 50
    let queryVariations := (generate_variations query.data).filter (fun v => v ≠ [])
    let approach1 := queryVariations.flatMap
      (fun v => extractWRatio ⟨v⟩ candidates (limit * 3) cutoff)
    let approach2 := (candidates.map
      (fun c => (c, calculate_enhanced_score query.data c.data))).filter
      (fun p => decide (cutoff ≤ p.2))
    (sortByScoreDesc (uniqueMax (approach1 ++ approach2))).take limit

/-- Per-candidate tier score of the `_simple_string_match` fallback
(fuzzy_matcher.py:203-233): 100 exact (case-insensitive), 95/85 for one/two
differing characters at equal length, 90 candidate-starts-with-query, 80
query-inside-candidate, 70 candidate-inside-query, otherwise no match. -/
def simpleScore (query candidate : List Char) : Option ℚ :=
  let ql := query.map Char.toLower
  let cl := candidate.map Char.toLower
  if ql = cl then some 100
  else if ql.length = cl.length then
    let diff := (ql.zip cl).countP (fun p => decide (p.1 ≠ p.2))
    if diff = 1 then some 95
    else if diff = 2 then some 85
    else none
  else if ql.isPrefixOf cl then some 90
  else if containsSub cl ql then some 80
  else if containsSub ql cl then some 70
  else none

/-- `FuzzyMatcher._simple_string_match`: tier-score the candidates, rank
descending and keep `limit`. -/
def simple_string_match (query : String) (candidates : List String) (limit : Nat) :
    List (String × ℚ) :=
  (sortByScoreDesc (candidates.filterMap
    (fun c => (simpleScore query.data c.data).map (fun s => (c, s))))).take limit

/-- `find_best_matches` as its caller observes it through the `try/except`
of fuzzy_matcher.py:155-201: when the composite-scoring path fails
internally, the result is `_simple_string_match` instead of an exception;
the function is total either way. -/
def find_best_matches_guarded (query : String) (candidates : List String)
    (limit : Nat) (internalFailure : Bool) : List (String × ℚ) :=
  if internalFailure then simple_string_match query candidates limit
  else find_best_matches query candidates limit

instance : IsTotal (String × ℚ) (fun a b : String × ℚ => b.2 ≤ a.2) :=
  ⟨fun a b => le_total b.2 a.2⟩

instance : IsTrans (String × ℚ) (fun a b : String × ℚ => b.2 ≤ a.2) :=
  ⟨fun _ _ _ h1 h2 => le_trans h2 h1⟩

/-- Base record for the C2 counterexample: a caution-severity interaction. -/
def cexBase : InteractionResult :=
  { medication := "Warfarin"
    food := "Spinach"
    severity := Severity.caution
    interaction_type := InteractionType.effectiveness
    mechanism := "Vitamin K antagonism"
    clinical_effect := "Reduced anticoagulation"
    timing_recommendation := ""
    confidence := 1/2
    evidence_level := "established"
    source := "A" }

/-- Same exact pair as `cexBase` but severity avoid (a conflicting source). -/
def cexAvoid : InteractionResult :=
  { cexBase with severity := Severity.avoid, source := "B" }

/-- Same pair as `cexBase` up to case only. -/
def cexLower : InteractionResult :=
  { cexBase with medication := "warfarin", food := "spinach" }

/-! ## Lemmas about the dedup loop -/

/-- The dedup loop returns a sublist of its input. -/
theorem dedupFirstAux_sublist (l : List InteractionResult) (seen : List (String × String)) :
    (dedupFirstAux l seen).Sublist l := by
  induction l generalizing seen with
  | nil => simp [dedupFirstAux]
  | cons x xs ih =>
    unfold dedupFirstAux
    by_cases h : pairKey x ∈ seen
    · rw [if_pos h]
      exact (ih seen).cons x
    · rw [if_neg h]
      exact (ih _).cons₂ x

/-- No element kept by the dedup loop has a key already recorded as seen. -/
theorem dedupFirstAux_key_notin_seen :
    ∀ (l : List InteractionResult) (seen : List (String × String)) (x : InteractionResult),
      x ∈ dedupFirstAux l seen → pairKey x ∉ seen := by
  intro l
  induction l with
  | nil =>
    intro seen x hx
    simp [dedupFirstAux] at hx
  | cons y ys ih =>
    intro seen x hx
    unfold dedupFirstAux at hx
    by_cases h : pairKey y ∈ seen
    · rw [if_pos h] at hx
      exact ih seen x hx
    · rw [if_neg h] at hx
      rcases List.mem_cons.mp hx with rfl | hx2
      · exact h
      · intro hmem
        exact ih _ x hx2 (List.mem_cons_of_mem _ hmem)

/-- Distinct keys: no two elements kept by the dedup loop share a pair key. -/
theorem dedupFirstAux_pairwise (l : List InteractionResult) (seen : List (String × String)) :
    List.Pairwise (fun a b => pairKey a ≠ pairKey b) (dedupFirstAux l seen) := by
  induction l generalizing seen with
  | nil => simp [dedupFirstAux]
  | cons y ys ih =>
    unfold dedupFirstAux
    by_cases h : pairKey y ∈ seen
    · rw [if_pos h]
      exact ih seen
    · rw [if_neg h]
      refine List.Pairwise.cons ?_ (ih _)
      intro b hb he
      exact dedupFirstAux_key_notin_seen ys _ b hb (by rw [← he]; exact List.mem_cons_self _ _)

/-- Every input pair key survives the dedup loop (unless already seen). -/
theorem dedupFirstAux_covers :
    ∀ (l : List InteractionResult) (seen : List (String × String)), ∀ y ∈ l,
      pairKey y ∈ seen ∨ ∃ x ∈ dedupFirstAux l seen, pairKey x = pairKey y := by
  intro l
  induction l with
  | nil =>
    intro seen y hy
    cases hy
  | cons z zs ih =>
    intro seen y hy
    unfold dedupFirstAux
    by_cases h : pairKey z ∈ seen
    · rw [if_pos h]
      rcases List.mem_cons.mp hy with rfl | hy2
      · exact Or.inl h
      · exact ih seen y hy2
    · rw [if_neg h]
      rcases List.mem_cons.mp hy with rfl | hy2
      · exact Or.inr ⟨y, List.mem_cons_self _ _, rfl⟩
      · rcases ih (pairKey z :: seen) y hy2 with hs | ⟨x, hx, he⟩
        · rcases List.mem_cons.mp hs with he2 | hs2
          · exact Or.inr ⟨z, List.mem_cons_self _ _, he2.symm⟩
          · exact Or.inl hs2
        · exact Or.inr ⟨x, List.mem_cons_of_mem _ hx, he⟩

/-- On an input sorted most-severe-first, the element the dedup loop keeps for
a pair key has minimal severity rank among all input elements with that key. -/
theorem dedupFirstAux_sorted_min :
    ∀ (l : List InteractionResult) (seen : List (String × String)),
      List.Sorted (fun a b => severityOrder a.severity ≤ severityOrder b.severity) l →
      ∀ x ∈ dedupFirstAux l seen, ∀ y ∈ l, pairKey y = pairKey x →
        severityOrder x.severity ≤ severityOrder y.severity := by
  intro l
  induction l with
  | nil =>
    intro seen _ x hx
    cases hx
  | cons z zs ih =>
    intro seen hs x hx y hy he
    have hz := (List.sorted_cons.mp hs).1
    have hs2 := (List.sorted_cons.mp hs).2
    unfold dedupFirstAux at hx
    by_cases h : pairKey z ∈ seen
    · rw [if_pos h] at hx
      rcases List.mem_cons.mp hy with rfl | hy2
      · exact absurd (he ▸ h) (dedupFirstAux_key_notin_seen zs seen x hx)
      · exact ih seen hs2 x hx y hy2 he
    · rw [if_neg h] at hx
      rcases List.mem_cons.mp hx with rfl | hx2
      · rcases List.mem_cons.mp hy with rfl | hy2
        · exact le_refl _
        · exact hz y hy2
      · rcases List.mem_cons.mp hy with rfl | hy2
        · exact absurd (by rw [← he]; exact List.mem_cons_self _ _)
            (dedupFirstAux_key_notin_seen zs _ x hx2)
        · exact ih _ hs2 x hx2 y hy2 he

/-! ## C1 and C2 -/

/-- C1: the overall risk computed by `_calculate_overall_risk` is `avoid` iff
some finding has severity avoid, `caution` iff none is avoid and some is
caution, and `safe` iff no finding is avoid or caution; in particular the
empty list yields `safe`. -/
theorem overall_risk_characterization (l : List InteractionResult) :
    (calculate_overall_risk l = Severity.avoid ↔ ∃ i ∈ l, i.severity = Severity.avoid) ∧
    (calculate_overall_risk l = Severity.caution ↔
      ((∀ i ∈ l, i.severity ≠ Severity.avoid) ∧ ∃ i ∈ l, i.severity = Severity.caution)) ∧
    (calculate_overall_risk l = Severity.safe ↔
      (∀ i ∈ l, i.severity ≠ Severity.avoid ∧ i.severity ≠ Severity.caution)) ∧
    calculate_overall_risk [] = Severity.safe := by
  have hAiff : (l.any (fun i => decide (i.severity = Severity.avoid)) = true) ↔
      ∃ i ∈ l, i.severity = Severity.avoid := by
    simp
  have hCiff : (l.any (fun i => decide (i.severity = Severity.caution)) = true) ↔
      ∃ i ∈ l, i.severity = Severity.caution := by
    simp
  by_cases hA : l.any (fun i => decide (i.severity = Severity.avoid)) = true
  · obtain ⟨i, hi, hsev⟩ := hAiff.mp hA
    have hrisk : calculate_overall_risk l = Severity.avoid := by
      unfold calculate_overall_risk
      rw [if_neg (List.ne_nil_of_mem hi), if_pos hA]
    refine ⟨iff_of_true hrisk ⟨i, hi, hsev⟩, ?_, ?_, rfl⟩
    · exact iff_of_false (by simp [hrisk]) (fun h => h.1 i hi hsev)
    · exact iff_of_false (by simp [hrisk]) (fun h => (h i hi).1 hsev)
  · have hallA : ∀ i ∈ l, i.severity ≠ Severity.avoid :=
      fun i hi hcon => hA (hAiff.mpr ⟨i, hi, hcon⟩)
    by_cases hC : l.any (fun i => decide (i.severity = Severity.caution)) = true
    · obtain ⟨i, hi, hsev⟩ := hCiff.mp hC
      have hrisk : calculate_overall_risk l = Severity.caution := by
        unfold calculate_overall_risk
        rw [if_neg (List.ne_nil_of_mem hi), if_neg hA, if_pos hC]
      refine ⟨?_, iff_of_true hrisk ⟨hallA, i, hi, hsev⟩, ?_, rfl⟩
      · exact iff_of_false (by simp [hrisk]) (fun h => by
          obtain ⟨j, hj, hs⟩ := h
          exact hallA j hj hs)
      · exact iff_of_false (by simp [hrisk]) (fun h => (h i hi).2 hsev)
    · have hallC : ∀ i ∈ l, i.severity ≠ Severity.caution :=
        fun i hi hcon => hC (hCiff.mpr ⟨i, hi, hcon⟩)
      have hrisk : calculate_overall_risk l = Severity.safe := by
        unfold calculate_overall_risk
        by_cases hnil : l = []
        · rw [if_pos hnil]
        · rw [if_neg hnil, if_neg hA, if_neg hC]
      refine ⟨?_, ?_, iff_of_true hrisk (fun i hi => ⟨hallA i hi, hallC i hi⟩), rfl⟩
      · exact iff_of_false (by simp [hrisk]) (fun h => by
          obtain ⟨j, hj, hs⟩ := h
          exact hallA j hj hs)
      · exact iff_of_false (by simp [hrisk]) (fun h => by
          obtain ⟨_, j, hj, hs⟩ := h
          exact hallC j hj hs)

/-- C2 (amended): `_combine_interactions` keeps, per exact case-sensitive
(medication, food) pair, exactly one finding — the first occurrence in input
order; no two findings of the result share the same exact pair; and when the
input is sorted most-severe-first (as the repository lookup produces it) the
kept finding has minimal severity rank (i.e. maximal severity) among the
input records with its exact pair. -/
theorem combine_dedup_amended (direct fuzzy : List InteractionResult) :
    List.Pairwise (fun a b => pairKey a ≠ pairKey b) (combine_interactions direct fuzzy) ∧
    (∀ x ∈ combine_interactions direct fuzzy, x ∈ direct ++ fuzzy) ∧
    (∀ y ∈ direct ++ fuzzy, ∃ x ∈ combine_interactions direct fuzzy, pairKey x = pairKey y) ∧
    (List.Sorted (fun a b => severityOrder a.severity ≤ severityOrder b.severity)
        (direct ++ fuzzy) →
      ∀ x ∈ combine_interactions direct fuzzy, ∀ y ∈ direct ++ fuzzy,
        pairKey y = pairKey x → severityOrder x.severity ≤ severityOrder y.severity) := by
  have hperm := List.perm_insertionSort
    (fun a b => severityOrder a.severity ≤ severityOrder b.severity)
    (dedupFirstAux (direct ++ fuzzy) [])
  have hmem : ∀ x, x ∈ combine_interactions direct fuzzy ↔
      x ∈ dedupFirstAux (direct ++ fuzzy) [] := fun x => hperm.mem_iff
  refine ⟨?_, ?_, ?_, ?_⟩
  · exact (List.Perm.pairwise_iff (fun h he => h he.symm) hperm).mpr
      (dedupFirstAux_pairwise _ _)
  · intro x hx
    exact (dedupFirstAux_sublist (direct ++ fuzzy) []).subset ((hmem x).mp hx)
  · intro y hy
    rcases dedupFirstAux_covers (direct ++ fuzzy) [] y hy with hs | ⟨x, hx, he⟩
    · cases hs
    · exact ⟨x, (hmem x).mpr hx, he⟩
  · intro hsorted x hx y hy he
    exact dedupFirstAux_sorted_min (direct ++ fuzzy) [] hsorted x ((hmem x).mp hx) y hy he

/-- C2 counterexample: with records (caution, avoid, caution-lowercased) for
the same case-folded pair, the dedup keeps the first-seen caution record and
drops the avoid record — not the most severe — and the result still contains
two findings whose case-folded pairs coincide. -/
theorem combine_dedup_counterexample :
    combine_interactions [cexBase, cexAvoid, cexLower] [] = [cexBase, cexLower] ∧
    cexBase.severity = Severity.caution ∧
    cexAvoid.severity = Severity.avoid ∧
    pairKey cexBase = pairKey cexAvoid ∧
    (∀ x ∈ combine_interactions [cexBase, cexAvoid, cexLower] [],
      x.severity ≠ Severity.avoid) ∧
    lowerStr cexBase.medication = lowerStr cexLower.medication ∧
    lowerStr cexBase.food = lowerStr cexLower.food ∧
    pairKey cexBase ≠ pairKey cexLower := by
  refine ⟨by rfl, rfl, rfl, rfl, ?_, by decide, by decide, by decide⟩
  have h : combine_interactions [cexBase, cexAvoid, cexLower] [] = [cexBase, cexLower] := by rfl
  rw [h]
  decide

/-! ## C3: ordering of the findings list -/

/-- The SQL severity rank and the engine severity rank order severities the
same way. -/
theorem rank_lt_iff (a b : Severity) :
    sqlSeverityRank a < sqlSeverityRank b ↔ severityOrder a < severityOrder b := by
  cases a <;> cases b <;> decide

/-- The SQL severity rank and the engine severity rank agree on equality. -/
theorem rank_eq_iff (a b : Severity) :
    sqlSeverityRank a = sqlSeverityRank b ↔ severityOrder a = severityOrder b := by
  cases a <;> cases b <;> decide

/-- Row conversion preserves the lexicographic order. -/
theorem rowLex_imp_resLex (a b : DBRow) (h : rowLex a b) :
    resLex (toInteractionResult a) (toInteractionResult b) := by
  unfold rowLex rowKey at h
  unfold resLex resKey toInteractionResult
  rw [Prod.Lex.le_iff] at h ⊢
  rcases h with h | ⟨he, hi⟩
  · exact Or.inl ((rank_lt_iff a.severity b.severity).mp h)
  · exact Or.inr ⟨(rank_eq_iff a.severity b.severity).mp he, hi⟩

/-- The direct-interaction list produced from the database lookup is sorted
by severity rank, then medication name, then food name. -/
theorem find_direct_sorted (db : List DBRow) (meds foods : List String) :
    List.Sorted resLex (find_direct_interactions db meds foods) := by
  unfold find_direct_interactions find_interactions
  by_cases h : meds = [] ∨ foods = []
  · rw [if_pos h]
    simp [List.Sorted]
  · rw [if_neg h]
    have hsorted := List.sorted_insertionSort rowLex
      (db.filter (fun r =>
        (meds.map lowerStr).contains (lowerStr r.medication_name) &&
        (foods.map lowerStr).contains (lowerStr r.food_name)))
    exact List.Pairwise.map toInteractionResult (fun a b hab => rowLex_imp_resLex a b hab) hsorted

/-- The lexicographic order implies the severity-rank order. -/
theorem resLex_imp_sevLE (a b : InteractionResult) (h : resLex a b) :
    severityOrder a.severity ≤ severityOrder b.severity := by
  unfold resLex resKey at h
  rw [Prod.Lex.le_iff] at h
  rcases h with h | ⟨he, _⟩
  · exact le_of_lt h
  · exact le_of_eq he

/-- Combining a lexicographically sorted direct list with the (always empty)
fuzzy list preserves lexicographic sortedness: the dedup keeps a sublist and
the stable severity re-sort leaves an already severity-sorted list unchanged. -/
theorem combine_sorted_of_sorted (direct : List InteractionResult)
    (h : List.Sorted resLex direct) :
    List.Sorted resLex (combine_interactions direct []) := by
  unfold combine_interactions
  rw [List.append_nil]
  have hd : List.Sorted resLex (dedupFirstAux direct []) :=
    List.Pairwise.sublist (dedupFirstAux_sublist direct []) h
  have hsev : List.Sorted
      (fun a b => severityOrder a.severity ≤ severityOrder b.severity)
      (dedupFirstAux direct []) :=
    hd.imp (fun hab => resLex_imp_sevLE _ _ hab)
  rw [List.Sorted.insertionSort_eq hsev]
  exact hd

/-- The findings list of every analysis result is either empty or the
combination of the (possibly failed) direct lookup with the empty fuzzy list. -/
theorem analyze_interactions_findings (meds foods : List String)
    (dbOutcome : Option (List InteractionResult)) (ai : AIOutcome) :
    (analyze_interactions meds foods dbOutcome ai).interactions = [] ∨
    (analyze_interactions meds foods dbOutcome ai).interactions =
      combine_interactions (dbOutcome.getD []) [] := by
  unfold analyze_interactions
  by_cases hv : (validate_user_input meds foods).1 = false
  · rw [if_pos hv]
    exact Or.inl rfl
  · rw [if_neg hv]
    cases ai with
    | ok r => exact Or.inr rfl
    | noResult => exact Or.inr rfl
    | raises => exact Or.inl rfl

/-- C3: every analysis result — over any database contents, inputs, lookup
failure flag and AI outcome — has its findings sorted by severity rank
(avoid 0, caution 1, safe 2), then medication name, then food name
(`resLex`); in particular the severity rank is non-decreasing through the
list.  The lexicographic order originates in the SQL ORDER BY of the lookup
and is preserved by the dedup and the stable severity sort. -/
theorem analysis_findings_sorted (db : List DBRow) (meds foods : List String)
    (dbFails : Bool) (ai : AIOutcome) :
    List.Sorted resLex (analyze_with_db db meds foods dbFails ai).interactions ∧
    List.Pairwise (fun a b => severityOrder a.severity ≤ severityOrder b.severity)
      (analyze_with_db db meds foods dbFails ai).interactions := by
  have hbase : List.Sorted resLex
      ((if dbFails then none else some (find_direct_interactions db meds foods)).getD
        ([] : List InteractionResult)) := by
    cases dbFails with
    | true => simp [List.Sorted]
    | false =>
      simp only [if_neg Bool.false_ne_true, Option.getD_some]
      exact find_direct_sorted db meds foods
  have hcomb := combine_sorted_of_sorted _ hbase
  have hsplit := analyze_interactions_findings meds foods
    (if dbFails then none else some (find_direct_interactions db meds foods)) ai
  unfold analyze_with_db
  rcases hsplit with hnil | heq
  · rw [hnil]
    exact ⟨List.sorted_nil, List.Pairwise.nil⟩
  · rw [heq]
    exact ⟨hcomb, hcomb.imp (fun hab => resLex_imp_sevLE _ _ hab)⟩

/-! ## C4: the confidence formula -/

/-- C4 counterexample: with no findings and one resolved name, the code
returns 0.8 outright while the claimed formula 0.7 × M + 0.3 × C evaluates
to 0.56. -/
theorem confidence_formula_counterexample :
    calculate_confidence [] ["Warfarin"] [] = 4/5 ∧
    claimConfidenceFormula [] ["Warfarin"] [] = 14/25 ∧
    ((4 : ℚ)/5) ≠ 14/25 := by
  refine ⟨rfl, ?_, by norm_num⟩
  simp only [claimConfidenceFormula, distinctNamesIn]
  norm_num

/-- C4 (amended): with a non-empty findings list the confidence equals the
claimed blend 0.7 × M + 0.3 × C clamped at 1; with an empty findings list it
is 0.8 outright (the blend, which would give 0.56 + 0.3 × C, is not used). -/
theorem calculate_confidence_amended (interactions : List InteractionResult)
    (meds foods : List String) :
    (interactions = [] → calculate_confidence interactions meds foods = 4/5) ∧
    (interactions ≠ [] →
      calculate_confidence interactions meds foods =
        min (claimConfidenceFormula interactions meds foods) 1) := by
  constructor
  · intro h
    subst h
    rfl
  · intro h
    simp only [calculate_confidence, claimConfidenceFormula, if_neg h]
    by_cases ht : meds.length + foods.length = 0
    · rw [if_neg (show ¬ 0 < meds.length + foods.length by omega), if_pos ht]
      congr 1
      ring
    · rw [if_pos (show 0 < meds.length + foods.length by omega), if_neg ht]
      congr 1
      ring

/-- Per-finding evidence confidence is non-negative. -/
theorem evidenceConfidence_nonneg (e : String) : 0 ≤ evidenceConfidence e := by
  unfold evidenceConfidence
  split_ifs <;> norm_num

/-- The confidence score of `_calculate_confidence` always lies in [0, 1]. -/
theorem calculate_confidence_bounds (interactions : List InteractionResult)
    (meds foods : List String) :
    0 ≤ calculate_confidence interactions meds foods ∧
      calculate_confidence interactions meds foods ≤ 1 := by
  simp only [calculate_confidence]
  by_cases h : interactions = []
  · rw [if_pos h]
    norm_num
  · rw [if_neg h]
    constructor
    · refine le_min ?_ (by norm_num)
      have hsum : 0 ≤ (interactions.map (fun i => evidenceConfidence i.evidence_level)).sum := by
        apply List.sum_nonneg
        intro x hx
        simp only [List.mem_map] at hx
        obtain ⟨i, _, rfl⟩ := hx
        exact evidenceConfidence_nonneg _
      have havg : 0 ≤ (interactions.map (fun i => evidenceConfidence i.evidence_level)).sum /
          (interactions.length : ℚ) :=
        div_nonneg hsum (by positivity)
      have hcov : (0:ℚ) ≤ (if 0 < meds.length + foods.length then
          (distinctNamesIn interactions : ℚ) / ((meds.length + foods.length : ℕ) : ℚ) else 0) := by
        split_ifs
        · positivity
        · exact le_refl 0
      exact add_nonneg (mul_nonneg havg (by norm_num)) (mul_nonneg hcov (by norm_num))
    · exact min_le_right _ _

/-! ## C5 and C8: behaviour of the analysis entry point -/

/-- C5 counterexample: on both input lists empty, the analysis returns
confidence 0.0, not the claimed 0.8 default. -/
theorem analyze_empty_counterexample :
    (analyze_interactions [] [] none AIOutcome.noResult).confidence_score = 0 ∧
    ((0 : ℚ) ≠ 4/5) :=
  ⟨rfl, by norm_num⟩

/-- C5 (amended): on both lists empty, input validation fails and the
analysis returns — without raising, as the model is total on every outcome of
its sub-operations — a safe, zero-finding result whose summary explains the
validation failure and whose confidence is 0.0; the 0.8 default applies to
valid inputs that produce no findings (final conjunct). -/
theorem analyze_empty_inputs (dbOutcome : Option (List InteractionResult)) (ai : AIOutcome) :
    (analyze_interactions [] [] dbOutcome ai).overall_risk_level = Severity.safe ∧
    (analyze_interactions [] [] dbOutcome ai).interactions = [] ∧
    (analyze_interactions [] [] dbOutcome ai).summary =
      "Input validation failed: Please select at least one medication or food item." ∧
    (analyze_interactions [] [] dbOutcome ai).recommendations =
      ["Please adjust your selections and try again."] ∧
    (analyze_interactions [] [] dbOutcome ai).confidence_score = 0 ∧
    (analyze_interactions ["Warfarin"] ["Spinach"] (some []) AIOutcome.noResult).confidence_score
      = 4/5 := by
  exact ⟨rfl, rfl, rfl, rfl, rfl, rfl⟩

/-- C8 counterexample: the confidence is not 0.8 on every path with empty
findings and zero resolved names — the validation-failure path (both lists
empty, so zero names) yields 0.0. -/
theorem confidence_default_counterexample :
    (analyze_interactions [] [] none (AIOutcome.ok ⟨"s", []⟩)).interactions = [] ∧
    (([] : List String).length + ([] : List String).length = 0) ∧
    (analyze_interactions [] [] none (AIOutcome.ok ⟨"s", []⟩)).confidence_score = 0 ∧
    ((0 : ℚ) ≠ 4/5) :=
  ⟨rfl, rfl, rfl, by norm_num⟩

/-- C8 (amended): the confidence score lies in [0, 1] on every path
(validation failure 0, internal-error fallback 0.5, and the computed score
otherwise); and it equals 0.8 exactly whenever the analysis completes
normally (valid input, AI block does not raise) with an empty findings list,
irrespective of the resolved-name count. -/
theorem analyze_confidence_bounds (meds foods : List String)
    (dbOutcome : Option (List InteractionResult)) (ai : AIOutcome) :
    (0 ≤ (analyze_interactions meds foods dbOutcome ai).confidence_score ∧
      (analyze_interactions meds foods dbOutcome ai).confidence_score ≤ 1) ∧
    ((validate_user_input meds foods).1 = true → ai ≠ AIOutcome.raises →
      (analyze_interactions meds foods dbOutcome ai).interactions = [] →
      (analyze_interactions meds foods dbOutcome ai).confidence_score = 4/5) := by
  constructor
  · unfold analyze_interactions
    by_cases hv : (validate_user_input meds foods).1 = false
    · rw [if_pos hv]
      norm_num
    · rw [if_neg hv]
      cases ai with
      | raises => exact ⟨by norm_num, by norm_num⟩
      | ok r => exact calculate_confidence_bounds _ _ _
      | noResult => exact calculate_confidence_bounds _ _ _
  · intro hvalid hai hempty
    have hv : ¬ (validate_user_input meds foods).1 = false := by
      rw [hvalid]
      simp
    unfold analyze_interactions at hempty ⊢
    rw [if_neg hv] at hempty ⊢
    cases ai with
    | raises => exact absurd rfl hai
    | ok r =>
      have h2 : combine_interactions (dbOutcome.getD []) [] = [] := hempty
      show calculate_confidence (combine_interactions (dbOutcome.getD []) []) meds foods = 4/5
      rw [h2]
      rfl
    | noResult =>
      have h2 : combine_interactions (dbOutcome.getD []) [] = [] := hempty
      show calculate_confidence (combine_interactions (dbOutcome.getD []) []) meds foods = 4/5
      rw [h2]
      rfl

/-! ## C9: recommendation composition -/

/-- C9: an empty findings list yields exactly the two generic strings in
fixed order, and for every findings list the last recommendation is a
consult-your-provider statement (the generic one on the empty path, the
closing one otherwise). -/
theorem recommendations_end_with_consult (l : List InteractionResult) :
    generate_recommendations [] = [noPrecautionsLine, consultGeneralLine] ∧
    ∃ s, (generate_recommendations l).getLast? = some s ∧ isConsultStatement s := by
  refine ⟨rfl, ?_⟩
  by_cases h : l = []
  · subst h
    exact ⟨consultGeneralLine, rfl, Or.inl rfl⟩
  · refine ⟨consultClosingLine, ?_, Or.inr rfl⟩
    unfold generate_recommendations
    rw [if_neg h]
    exact List.getLast?_concat _

/-! ## C10: idempotence of the name cleaning -/

/-- Decoding a valid code point gives back the code point. -/
theorem char_toNat_ofNat_valid (n : Nat) (h : n.isValidChar) : (Char.ofNat n).toNat = n := by
  unfold Char.ofNat
  rw [dif_pos h]
  unfold Char.ofNatAux Char.toNat
  simp only [UInt32.toNat]
  have hlt : n < 2 ^ 32 := by
    rcases h with h1 | ⟨_, h2⟩
    · omega
    · omega
  simp [BitVec.toNat_ofNatLt, Nat.mod_eq_of_lt hlt]

/-- ASCII lowercasing is idempotent. -/
theorem toLower_idem (c : Char) : c.toLower.toLower = c.toLower := by
  unfold Char.toLower
  by_cases h : c.toNat ≥ 65 ∧ c.toNat ≤ 90
  · rw [if_pos h]
    have hv : (c.toNat + 32).isValidChar := by
      left
      have := h.2
      omega
    have ht : (Char.ofNat (c.toNat + 32)).toNat = c.toNat + 32 := char_toNat_ofNat_valid _ hv
    rw [if_neg (by omega)]
  · rw [if_neg h, if_neg h]

/-- Lowercasing does not change whether a character is whitespace. -/
theorem isWsChar_toLower (c : Char) : isWsChar c.toLower = isWsChar c := by
  unfold Char.toLower
  by_cases h : c.toNat ≥ 65 ∧ c.toNat ≤ 90
  · rw [if_pos h]
    have hv : (c.toNat + 32).isValidChar := by
      left
      have := h.2
      omega
    have ht : (Char.ofNat (c.toNat + 32)).toNat = c.toNat + 32 := char_toNat_ofNat_valid _ hv
    have h1 := h.1
    have h2 := h.2
    unfold isWsChar
    rw [ht]
    have hL : ∀ m : Nat, 64 < m → (decide (m = 32) || decide (m = 9) || decide (m = 10) ||
        decide (m = 13) || decide (m = 11) || decide (m = 12)) = false := by
      intro m hm
      simp only [Bool.or_eq_false_iff, decide_eq_false_iff_not]
      omega
    rw [hL (c.toNat + 32) (by omega), hL c.toNat (by omega)]
  · rw [if_neg h]

/-- Dropping leading whitespace from a whitespace-free list is the identity. -/
theorem dropWhile_ws_eq_self (l : List Char) (h : ∀ c ∈ l, isWsChar c = false) :
    l.dropWhile isWsChar = l := by
  cases l with
  | nil => rfl
  | cons c cs =>
    rw [List.dropWhile_cons, if_neg (by simp [h c (List.mem_cons_self _ _)])]

/-- Taking leading whitespace from a whitespace-free list gives nothing. -/
theorem takeWhile_ws_eq_nil (l : List Char) (h : ∀ c ∈ l, isWsChar c = false) :
    l.takeWhile isWsChar = [] := by
  cases l with
  | nil => rfl
  | cons c cs =>
    rw [List.takeWhile_cons, if_neg (by simp [h c (List.mem_cons_self _ _)])]

/-- Stripping a whitespace-free list is the identity. -/
theorem stripChars_eq_self (l : List Char) (h : ∀ c ∈ l, isWsChar c = false) :
    stripChars l = l := by
  unfold stripChars
  rw [dropWhile_ws_eq_self l h,
    dropWhile_ws_eq_self l.reverse (fun c hc => h c (List.mem_reverse.mp hc)),
    List.reverse_reverse]

/-- Stripping only keeps characters of the input. -/
theorem stripChars_subset (l : List Char) : stripChars l ⊆ l := by
  intro c hc
  unfold stripChars at hc
  rw [List.mem_reverse] at hc
  have h1 := (List.dropWhile_sublist (l := (l.dropWhile isWsChar).reverse) isWsChar).subset hc
  rw [List.mem_reverse] at h1
  exact (List.dropWhile_sublist isWsChar).subset h1

/-- A substitution pass leaves a whitespace-free list unchanged, provided the
matcher never fires on a non-whitespace head. -/
theorem applySubAux_eq_self (m : List Char → Option (List Char))
    (hm : ∀ c cs, isWsChar c = false → m (c :: cs) = none) :
    ∀ (fuel : Nat) (l : List Char), (∀ c ∈ l, isWsChar c = false) →
      applySubAux m fuel l = l := by
  intro fuel
  induction fuel with
  | zero =>
    intro l _
    rfl
  | succ n ih =>
    intro l h
    cases l with
    | nil => rfl
    | cons c cs =>
      unfold applySubAux
      rw [hm c cs (h c (List.mem_cons_self _ _))]
      rw [ih cs (fun x hx => h x (List.mem_cons_of_mem _ hx))]

/-- The dosage matcher requires leading whitespace. -/
theorem matchDosage_none (c : Char) (cs : List Char) (h : isWsChar c = false) :
    matchDosage (c :: cs) = none := by
  simp [matchDosage, List.takeWhile_cons, h]

/-- The form-word matcher requires leading whitespace. -/
theorem matchForm_none (c : Char) (cs : List Char) (h : isWsChar c = false) :
    matchForm (c :: cs) = none := by
  simp [matchForm, List.takeWhile_cons, h]

/-- The bracket matcher requires leading whitespace. -/
theorem matchBracket_none (c : Char) (cs : List Char) (h : isWsChar c = false) :
    matchBracket (c :: cs) = none := by
  simp [matchBracket, List.takeWhile_cons, h]

/-- The leading-qualifier strip does nothing on a whitespace-free list. -/
theorem applyLeadQualifier_eq_self (l : List Char) (h : ∀ c ∈ l, isWsChar c = false) :
    applyLeadQualifier l = l := by
  unfold applyLeadQualifier
  have htry : ∀ w : List Char,
      (if w.isPrefixOf l then
        (if (l.drop w.length).takeWhile isWsChar = [] then none
          else some ((l.drop w.length).dropWhile isWsChar))
        else none) = none := by
    intro w
    by_cases hp : w.isPrefixOf l
    · rw [if_pos hp, if_pos (takeWhile_ws_eq_nil _
        (fun c hc => h c (List.mem_of_mem_drop hc)))]
    · rw [if_neg hp]
  simp only [htry]

/-- Whitespace collapsing does nothing on a whitespace-free list. -/
theorem collapseWsAux_eq_self (l : List Char) (h : ∀ c ∈ l, isWsChar c = false) :
    ∀ b, collapseWsAux b l = l := by
  induction l with
  | nil =>
    intro b
    rfl
  | cons c cs ih =>
    intro b
    unfold collapseWsAux
    rw [if_neg (by simp [h c (List.mem_cons_self _ _)])]
    rw [ih (fun x hx => h x (List.mem_cons_of_mem _ hx))]

/-- Mapping a function that fixes every element is the identity. -/
theorem map_eq_self_of_fixed {α : Type} (f : α → α) (l : List α)
    (h : ∀ c ∈ l, f c = c) : l.map f = l := by
  induction l with
  | nil => rfl
  | cons c cs ih =>
    rw [List.map_cons, h c (List.mem_cons_self _ _),
      ih (fun x hx => h x (List.mem_cons_of_mem _ hx))]

/-- On a whitespace-free input, every substitution pass of the cleaner is the
identity (each pattern begins with `\s+`), so cleaning reduces to
lowercasing followed by the disallowed-character removal. -/
theorem cleanChars_noWs_eq (l : List Char) (h : ∀ c ∈ l, isWsChar c = false) :
    cleanChars l = filterAllowed (l.map Char.toLower) := by
  by_cases hnil : l = []
  · subst hnil
    rfl
  · unfold cleanChars
    rw [if_neg hnil]
    have hmap : ∀ c ∈ l.map Char.toLower, isWsChar c = false := by
      intro c hc
      rcases List.mem_map.mp hc with ⟨x, hx, rfl⟩
      rw [isWsChar_toLower]
      exact h x hx
    simp only [applySub]
    rw [stripChars_eq_self _ hmap,
      applySubAux_eq_self matchDosage (fun c cs hc => matchDosage_none c cs hc) _ _ hmap,
      applySubAux_eq_self matchForm (fun c cs hc => matchForm_none c cs hc) _ _ hmap,
      applySubAux_eq_self matchBracket (fun c cs hc => matchBracket_none c cs hc) _ _ hmap,
      applyLeadQualifier_eq_self _ hmap]
    unfold collapseWs
    rw [collapseWsAux_eq_self _ hmap false]
    rw [stripChars_eq_self]
    intro c hc
    exact hmap c (List.mem_filter.mp hc).1

/-- C10 counterexample: cleaning is not idempotent.  For "a 5 3mg mg" the
dosage pass removes " 3mg", leaving "a 5 mg", in which a second cleaning
finds the freshly formed dosage token " 5 mg" and removes it too. -/
theorem clean_string_not_idempotent :
    clean_string "a 5 3mg mg" = "a 5 mg" ∧
    clean_string (clean_string "a 5 3mg mg") = "a" ∧
    ("a" : String) ≠ "a 5 mg" :=
  ⟨rfl, rfl, by decide⟩

/-- C10 (amended): `clean_string` is not idempotent in general — removing a
span can splice the flanks into a fresh match for an earlier pattern — but it
is idempotent on every input containing no whitespace character, where all
span-removal passes are inert. -/
theorem clean_string_idem_noWs (s : String) (h : ∀ c ∈ s.data, isWsChar c = false) :
    clean_string (clean_string s) = clean_string s := by
  unfold clean_string
  congr 1
  rw [cleanChars_noWs_eq s.data h]
  have hoWs : ∀ c ∈ filterAllowed (s.data.map Char.toLower), isWsChar c = false := by
    intro c hc
    rcases List.mem_map.mp (List.mem_filter.mp hc).1 with ⟨x, hx, rfl⟩
    rw [isWsChar_toLower]
    exact h x hx
  rw [cleanChars_noWs_eq _ hoWs]
  have hfix : ∀ c ∈ filterAllowed (s.data.map Char.toLower), Char.toLower c = c := by
    intro c hc
    rcases List.mem_map.mp (List.mem_filter.mp hc).1 with ⟨x, hx, rfl⟩
    exact toLower_idem x
  rw [map_eq_self_of_fixed _ _ hfix]
  simp only [filterAllowed]
  exact List.filter_eq_self.mpr (fun a ha => (List.mem_filter.mp ha).2)

/-- Witness for the amended C10 at a concrete whitespace-free input. -/
theorem clean_string_idem_witness :
    clean_string (clean_string "warfarin") = clean_string "warfarin" :=
  clean_string_idem_noWs "warfarin" (by decide)

/-! ## Score bounds and reflexivity of the modelled rapidfuzz measures -/

/-- An LCS is at most as long as the first string. -/
theorem lcsAux_le_left : ∀ (fuel : Nat) (a b : List Char), lcsAux fuel a b ≤ a.length := by
  intro fuel
  induction fuel with
  | zero =>
    intro a b
    exact Nat.zero_le _
  | succ n ih =>
    intro a b
    cases a with
    | nil => simp [lcsAux]
    | cons x xs =>
      cases b with
      | nil => simp [lcsAux]
      | cons y ys =>
        unfold lcsAux
        by_cases h : x = y
        · rw [if_pos h]
          have := ih xs ys
          simp only [List.length_cons]
          omega
        · rw [if_neg h]
          have h1 := ih (x :: xs) ys
          have h2 := ih xs (y :: ys)
          simp only [List.length_cons] at h1 h2 ⊢
          omega

/-- An LCS is at most as long as the second string. -/
theorem lcsAux_le_right : ∀ (fuel : Nat) (a b : List Char), lcsAux fuel a b ≤ b.length := by
  intro fuel
  induction fuel with
  | zero =>
    intro a b
    exact Nat.zero_le _
  | succ n ih =>
    intro a b
    cases a with
    | nil => simp [lcsAux]
    | cons x xs =>
      cases b with
      | nil => simp [lcsAux]
      | cons y ys =>
        unfold lcsAux
        by_cases h : x = y
        · rw [if_pos h]
          have := ih xs ys
          simp only [List.length_cons]
          omega
        · rw [if_neg h]
          have h1 := ih (x :: xs) ys
          have h2 := ih xs (y :: ys)
          simp only [List.length_cons] at h1 h2 ⊢
          omega

/-- With enough fuel, the LCS of a list with itself is its length. -/
theorem lcsAux_self : ∀ (a : List Char) (fuel : Nat), a.length ≤ fuel →
    lcsAux fuel a a = a.length := by
  intro a
  induction a with
  | nil =>
    intro fuel _
    cases fuel with
    | zero => rfl
    | succ n => rfl
  | cons x xs ih =>
    intro fuel h
    cases fuel with
    | zero =>
      simp only [List.length_cons] at h
      omega
    | succ n =>
      unfold lcsAux
      rw [if_pos rfl, ih n (by simp only [List.length_cons] at h; omega)]
      simp

/-- The ratio measure of a string with itself is 100. -/
theorem indelSim_self (a : List Char) : indelSim a a = 100 := by
  unfold indelSim
  by_cases h : a.length + a.length = 0
  · rw [if_pos h]
  · rw [if_neg h]
    unfold lcsLen
    rw [lcsAux_self a (a.length + a.length) (by omega)]
    rw [div_eq_iff (by exact_mod_cast h)]
    push_cast
    ring

/-- The ratio measure never exceeds 100. -/
theorem indelSim_le_100 (a b : List Char) : indelSim a b ≤ 100 := by
  unfold indelSim
  by_cases h : a.length + b.length = 0
  · rw [if_pos h]
  · rw [if_neg h]
    rw [div_le_iff (by exact_mod_cast Nat.pos_of_ne_zero h)]
    have h1 := lcsAux_le_left (a.length + b.length) a b
    have h2 := lcsAux_le_right (a.length + b.length) a b
    unfold lcsLen
    exact_mod_cast (by omega :
      200 * lcsAux (a.length + b.length) a b ≤ 100 * (a.length + b.length))

/-- A left fold by `max` stays below any bound dominating the seed and the
elements. -/
theorem foldl_max_le (B : ℚ) :
    ∀ (l : List ℚ) (init : ℚ), init ≤ B → (∀ x ∈ l, x ≤ B) → l.foldl max init ≤ B := by
  intro l
  induction l with
  | nil =>
    intro init h _
    exact h
  | cons y ys ih =>
    intro init h hl
    exact ih (max init y) (max_le h (hl y (List.mem_cons_self _ _)))
      (fun x hx => hl x (List.mem_cons_of_mem _ hx))

/-- The seed never exceeds a left fold by `max`. -/
theorem init_le_foldl_max : ∀ (l : List ℚ) (init : ℚ), init ≤ l.foldl max init := by
  intro l
  induction l with
  | nil =>
    intro init
    exact le_refl _
  | cons y ys ih =>
    intro init
    exact le_trans (le_max_left init y) (ih (max init y))

/-- Every element is at most the left fold by `max`. -/
theorem mem_le_foldl_max : ∀ (l : List ℚ) (init : ℚ) (x : ℚ), x ∈ l → x ≤ l.foldl max init := by
  intro l
  induction l with
  | nil =>
    intro init x hx
    cases hx
  | cons y ys ih =>
    intro init x hx
    rcases List.mem_cons.mp hx with rfl | hx2
    · exact le_trans (le_max_right init x) (init_le_foldl_max ys (max init x))
    · exact ih (max init y) x hx2

/-- The partial measure of a string with itself is 100. -/
theorem bestWindowSim_self (a : List Char) : bestWindowSim a a = 100 := by
  unfold bestWindowSim
  simp only [le_refl, if_true]
  have hw : a ∈ partialWindows a.length a := by
    unfold partialWindows
    refine List.mem_append.mpr (Or.inl (List.mem_append.mpr (Or.inr ?_)))
    unfold windowsOfLen
    rw [List.mem_filterMap]
    refine ⟨a, ?_, by simp⟩
    rw [List.mem_tails]
  have hmem : (100 : ℚ) ∈ (partialWindows a.length a).map (fun w => indelSim a w) := by
    have h2 := List.mem_map_of_mem (fun w => indelSim a w) hw
    simpa [indelSim_self] using h2
  refine le_antisymm ?_ (mem_le_foldl_max _ 0 100 hmem)
  exact foldl_max_le 100 _ 0 (by norm_num) (by
    intro x hx
    rcases List.mem_map.mp hx with ⟨w, _, rfl⟩
    exact indelSim_le_100 a w)

/-- The partial measure never exceeds 100. -/
theorem bestWindowSim_le_100 (a b : List Char) : bestWindowSim a b ≤ 100 := by
  unfold bestWindowSim
  apply foldl_max_le _ _ _ (by norm_num)
  intro x hx
  rcases List.mem_map.mp hx with ⟨w, _, rfl⟩
  exact indelSim_le_100 _ w

/-- The token-sort measure of a string with itself is 100. -/
theorem tokenSortSim_self (a : List Char) : tokenSortSim a a = 100 :=
  indelSim_self _

/-- The token-sort measure never exceeds 100. -/
theorem tokenSortSim_le_100 (a b : List Char) : tokenSortSim a b ≤ 100 :=
  indelSim_le_100 _ _

/-- The token-set measure of a string with itself is 100. -/
theorem tokenSetSim_self (a : List Char) : tokenSetSim a a = 100 := by
  unfold tokenSetSim tokenSetStrings
  have hinter : (dedupKeepFirst (splitTokens a)).filter
      (fun t => t ∈ dedupKeepFirst (splitTokens a)) = dedupKeepFirst (splitTokens a) :=
    List.filter_eq_self.mpr (fun t ht => by simpa using ht)
  have hdiff : (dedupKeepFirst (splitTokens a)).filter
      (fun t => t ∉ dedupKeepFirst (splitTokens a)) = [] :=
    List.filter_eq_nil.mpr (fun t ht => by simpa using ht)
  simp only [hinter, hdiff]
  simp [indelSim_self]

/-- The token-set measure never exceeds 100. -/
theorem tokenSetSim_le_100 (a b : List Char) : tokenSetSim a b ≤ 100 := by
  unfold tokenSetSim
  exact max_le (indelSim_le_100 _ _) (max_le (indelSim_le_100 _ _) (indelSim_le_100 _ _))

/-- The partial token measures never exceed 100. -/
theorem partialTokenSortSim_le_100 (a b : List Char) : partialTokenSortSim a b ≤ 100 :=
  bestWindowSim_le_100 _ _

/-- The partial token-set measure never exceeds 100. -/
theorem partialTokenSetSim_le_100 (a b : List Char) : partialTokenSetSim a b ≤ 100 := by
  unfold partialTokenSetSim
  exact max_le (bestWindowSim_le_100 _ _)
    (max_le (bestWindowSim_le_100 _ _) (bestWindowSim_le_100 _ _))

/-- The WRatio scorer never exceeds 100. -/
theorem wScore_le_100 (a b : List Char) : wScore a b ≤ 100 := by
  simp only [wScore]
  by_cases h0 : a.length = 0 ∨ b.length = 0
  · rw [if_pos h0]
    norm_num
  · rw [if_neg h0]
    have htoken : max (tokenSortSim a b) (tokenSetSim a b) ≤ 100 :=
      max_le (tokenSortSim_le_100 a b) (tokenSetSim_le_100 a b)
    have hpt : max (partialTokenSortSim a b) (partialTokenSetSim a b) ≤ 100 :=
      max_le (partialTokenSortSim_le_100 a b) (partialTokenSetSim_le_100 a b)
    have hbw := bestWindowSim_le_100 a b
    split_ifs
    · exact max_le (indelSim_le_100 a b) (by nlinarith [htoken])
    · exact max_le (indelSim_le_100 a b)
        (max_le (by nlinarith [hbw]) (by nlinarith [hpt]))
    · exact max_le (indelSim_le_100 a b)
        (max_le (by nlinarith [hbw]) (by nlinarith [hpt]))

/-- The WRatio scorer on a non-empty string against itself is exactly 100. -/
theorem wScore_self (a : List Char) (h : a ≠ []) : wScore a a = 100 := by
  simp only [wScore]
  have hlen : a.length ≠ 0 := by simpa [List.length_eq_zero] using h
  have hpos : (0 : ℚ) < (a.length : ℚ) := by
    exact_mod_cast Nat.pos_of_ne_zero hlen
  rw [if_neg (by simp [hlen])]
  rw [if_pos (by
    simp only [Nat.max_self, Nat.min_self]
    nlinarith)]
  rw [indelSim_self]
  have htoken : max (tokenSortSim a a) (tokenSetSim a a) ≤ 100 :=
    max_le (tokenSortSim_le_100 a a) (tokenSetSim_le_100 a a)
  rw [max_eq_left (by nlinarith)]

/-- The enhanced composite score never exceeds 100. -/
theorem calculate_enhanced_score_le_100 (q c : List Char) :
    calculate_enhanced_score q c ≤ 100 := by
  simp only [calculate_enhanced_score]
  have hbase : indelSim q c * (2/5) + bestWindowSim q c * (1/5) + tokenSortSim q c * (1/5) +
      tokenSetSim q c * (1/5) ≤ 100 := by
    linarith [indelSim_le_100 q c, bestWindowSim_le_100 q c, tokenSortSim_le_100 q c,
      tokenSetSim_le_100 q c]
  split_ifs <;>
    first
      | exact min_le_left _ _
      | exact hbase

/-- The enhanced composite score of a string against itself is exactly 100. -/
theorem calculate_enhanced_score_self (q : List Char) :
    calculate_enhanced_score q q = 100 := by
  simp only [calculate_enhanced_score, indelSim_self, bestWindowSim_self, tokenSortSim_self,
    tokenSetSim_self]
  have hbase : (100 : ℚ) * (2/5) + 100 * (1/5) + 100 * (1/5) + 100 * (1/5) = 100 := by
    norm_num
  rw [hbase]
  split_ifs <;> norm_num [min_def]

/-! ## Lemmas about the best-score dictionary and the final ranking -/

/-- A dictionary update keeps every stored score below a bound dominating
the old scores and the new score. -/
theorem updateMax_val_le (B : ℚ) :
    ∀ (acc : List (String × ℚ)) (q : String × ℚ), (∀ p ∈ acc, p.2 ≤ B) → q.2 ≤ B →
      ∀ p ∈ updateMax acc q, p.2 ≤ B := by
  intro acc
  induction acc with
  | nil =>
    intro q _ hq p hp
    rcases List.mem_singleton.mp hp with rfl
    exact hq
  | cons a rest ih =>
    intro q hacc hq p hp
    obtain ⟨k, v⟩ := a
    unfold updateMax at hp
    by_cases hk : k = q.1
    · rw [if_pos hk] at hp
      by_cases hv : v < q.2
      · rw [if_pos hv] at hp
        rcases List.mem_cons.mp hp with rfl | hp2
        · exact hq
        · exact hacc p (List.mem_cons_of_mem _ hp2)
      · rw [if_neg hv] at hp
        exact hacc p hp
    · rw [if_neg hk] at hp
      rcases List.mem_cons.mp hp with rfl | hp2
      · exact hacc (k, v) (List.mem_cons_self _ _)
      · exact ih q (fun x hx => hacc x (List.mem_cons_of_mem _ hx)) hq p hp2

/-- Folding dictionary updates keeps every stored score below a bound
dominating the accumulator and the inputs. -/
theorem foldl_updateMax_val_le (B : ℚ) :
    ∀ (ps acc : List (String × ℚ)), (∀ p ∈ acc, p.2 ≤ B) → (∀ p ∈ ps, p.2 ≤ B) →
      ∀ p ∈ ps.foldl updateMax acc, p.2 ≤ B := by
  intro ps
  induction ps with
  | nil =>
    intro acc hacc _ p hp
    exact hacc p hp
  | cons q rest ih =>
    intro acc hacc hps p hp
    exact ih (updateMax acc q)
      (updateMax_val_le B acc q hacc (hps q (List.mem_cons_self _ _)))
      (fun x hx => hps x (List.mem_cons_of_mem _ hx)) p hp

/-- After an update with `q`, the dictionary stores `q`'s key with at least
`q`'s score. -/
theorem updateMax_mem_self :
    ∀ (acc : List (String × ℚ)) (q : String × ℚ),
      ∃ w, (q.1, w) ∈ updateMax acc q ∧ q.2 ≤ w := by
  intro acc
  induction acc with
  | nil =>
    intro q
    exact ⟨q.2, by simp [updateMax], le_refl _⟩
  | cons a rest ih =>
    intro q
    obtain ⟨k, v⟩ := a
    unfold updateMax
    by_cases hk : k = q.1
    · rw [if_pos hk]
      by_cases hv : v < q.2
      · rw [if_pos hv]
        subst hk
        exact ⟨q.2, List.mem_cons_self _ _, le_refl _⟩
      · rw [if_neg hv]
        subst hk
        exact ⟨v, List.mem_cons_self _ _, le_of_not_lt hv⟩
    · rw [if_neg hk]
      obtain ⟨w, hw, hle⟩ := ih q
      exact ⟨w, List.mem_cons_of_mem _ hw, hle⟩

/-- A dictionary update never lowers the score stored under any key. -/
theorem updateMax_mem_persist :
    ∀ (acc : List (String × ℚ)) (q : String × ℚ) (k : String) (w : ℚ),
      (k, w) ∈ acc → ∃ w2, (k, w2) ∈ updateMax acc q ∧ w ≤ w2 := by
  intro acc
  induction acc with
  | nil =>
    intro q k w h
    cases h
  | cons a rest ih =>
    intro q k w h
    obtain ⟨k0, v0⟩ := a
    unfold updateMax
    rcases List.mem_cons.mp h with heq | hmem
    · have h1 : k = k0 := congrArg Prod.fst heq
      have h2 : w = v0 := congrArg Prod.snd heq
      subst h1
      subst h2
      by_cases hk : k = q.1
      · rw [if_pos hk]
        by_cases hv : w < q.2
        · rw [if_pos hv]
          exact ⟨q.2, List.mem_cons_self _ _, le_of_lt hv⟩
        · rw [if_neg hv]
          exact ⟨w, List.mem_cons_self _ _, le_refl _⟩
      · rw [if_neg hk]
        exact ⟨w, List.mem_cons_self _ _, le_refl _⟩
    · by_cases hk : k0 = q.1
      · rw [if_pos hk]
        by_cases hv : v0 < q.2
        · rw [if_pos hv]
          exact ⟨w, List.mem_cons_of_mem _ hmem, le_refl _⟩
        · rw [if_neg hv]
          exact ⟨w, List.mem_cons_of_mem _ hmem, le_refl _⟩
      · rw [if_neg hk]
        obtain ⟨w2, hw2, hle⟩ := ih q k w hmem
        exact ⟨w2, List.mem_cons_of_mem _ hw2, hle⟩

/-- Every key fed to the dictionary fold survives with a score at least its
input score. -/
theorem foldl_updateMax_mem :
    ∀ (ps acc : List (String × ℚ)) (k : String) (v : ℚ),
      ((k, v) ∈ acc ∨ (k, v) ∈ ps) →
      ∃ w, (k, w) ∈ ps.foldl updateMax acc ∧ v ≤ w := by
  intro ps
  induction ps with
  | nil =>
    intro acc k v h
    rcases h with h | h
    · exact ⟨v, h, le_refl _⟩
    · cases h
  | cons q rest ih =>
    intro acc k v h
    rcases h with h | h
    · obtain ⟨w1, hw1, hle1⟩ := updateMax_mem_persist acc q k v h
      obtain ⟨w2, hw2, hle2⟩ := ih (updateMax acc q) k w1 (Or.inl hw1)
      exact ⟨w2, hw2, le_trans hle1 hle2⟩
    · rcases List.mem_cons.mp h with heq | hmem
      · have h1 : k = q.1 := congrArg Prod.fst heq
        have h2 : v = q.2 := congrArg Prod.snd heq
        subst h1
        subst h2
        obtain ⟨w1, hw1, hle1⟩ := updateMax_mem_self acc q
        obtain ⟨w2, hw2, hle2⟩ := ih (updateMax acc q) q.1 w1 (Or.inl hw1)
        exact ⟨w2, hw2, le_trans hle1 hle2⟩
      · exact ih (updateMax acc q) k v (Or.inr hmem)

/-- The explicit form of `find_best_matches` outside its empty-input guard. -/
theorem find_best_matches_eq (query : String) (candidates : List String) (limit : Nat)
    (hq : ¬(query = "" ∨ candidates = [])) :
    find_best_matches query candidates limit =
      (sortByScoreDesc (uniqueMax (
        ((generate_variations query.data).filter (fun v => v ≠ [])).flatMap
          (fun v => extractWRatio ⟨v⟩ candidates (limit * 3) 50) ++
        (candidates.map (fun c => (c, calculate_enhanced_score query.data c.data))).filter
          (fun p => decide ((50 : ℚ) ≤ p.2))))).take limit := by
  unfold find_best_matches
  rw [if_neg hq]

/-- The final ranking is a permutation of the score dictionary. -/
theorem sortByScoreDesc_perm (l : List (String × ℚ)) : (sortByScoreDesc l).Perm l :=
  List.perm_insertionSort _ l

/-- The final ranking is sorted by descending score. -/
theorem sortByScoreDesc_sorted (l : List (String × ℚ)) :
    List.Sorted (fun a b : String × ℚ => b.2 ≤ a.2) (sortByScoreDesc l) :=
  List.sorted_insertionSort _ l

/-- C6 (amended): when the candidate list contains the query string itself —
equal including case, as when a canonical catalog name is re-resolved —
`find_best_matches query candidates 1` returns exactly one pair, and its
score is exactly 100 (a tied candidate may stand in as the returned string;
no score can exceed 100).  For a candidate equal to the query only up to
case, the score can fall short of 100 (see the counterexample). -/
theorem find_best_matches_exact (query : String) (candidates : List String)
    (hq : query ≠ "") (hmem : query ∈ candidates) :
    ∃ c s, find_best_matches query candidates 1 = [(c, s)] ∧ s = 100 := by
  have hguard : ¬(query = "" ∨ candidates = []) := by
    push_neg
    exact ⟨hq, List.ne_nil_of_mem hmem⟩
  rw [find_best_matches_eq query candidates 1 hguard]
  set a1 := ((generate_variations query.data).filter (fun v => v ≠ [])).flatMap
      (fun v => extractWRatio ⟨v⟩ candidates (1 * 3) 50) with ha1
  set a2 := (candidates.map (fun c => (c, calculate_enhanced_score query.data c.data))).filter
      (fun p => decide ((50 : ℚ) ≤ p.2)) with ha2
  have hq2 : (query, (100 : ℚ)) ∈ a2 := by
    rw [ha2, List.mem_filter]
    constructor
    · have h2 := List.mem_map_of_mem
        (fun c => (c, calculate_enhanced_score query.data c.data)) hmem
      simpa [calculate_enhanced_score_self] using h2
    · norm_num
  have hall : ∀ p ∈ a1 ++ a2, p.2 ≤ 100 := by
    intro p hp
    rcases List.mem_append.mp hp with hp1 | hp2
    · rw [ha1] at hp1
      rcases List.mem_flatMap.mp hp1 with ⟨v, _, hpe⟩
      unfold extractWRatio at hpe
      have hp3 := List.take_subset _ _ hpe
      have hp4 := (sortByScoreDesc_perm _).mem_iff.mp hp3
      have hp5 := List.mem_of_mem_filter hp4
      rcases List.mem_map.mp hp5 with ⟨c, _, rfl⟩
      exact wScore_le_100 _ _
    · rw [ha2] at hp2
      have hp5 := List.mem_of_mem_filter hp2
      rcases List.mem_map.mp hp5 with ⟨c, _, rfl⟩
      exact calculate_enhanced_score_le_100 _ _
  obtain ⟨w, hwmem, hwge⟩ := foldl_updateMax_mem (a1 ++ a2) [] query 100
    (Or.inr (List.mem_append.mpr (Or.inr hq2)))
  have hw100 : w = 100 :=
    le_antisymm (foldl_updateMax_val_le 100 (a1 ++ a2) [] (by simp) hall (query, w) hwmem) hwge
  subst hw100
  have hmem2 : (query, (100 : ℚ)) ∈ sortByScoreDesc (uniqueMax (a1 ++ a2)) :=
    (sortByScoreDesc_perm _).mem_iff.mpr hwmem
  cases hsort : sortByScoreDesc (uniqueMax (a1 ++ a2)) with
  | nil =>
    rw [hsort] at hmem2
    cases hmem2
  | cons hd tl =>
    refine ⟨hd.1, hd.2, ?_, ?_⟩
    · rfl
    · have hhd_mem : hd ∈ uniqueMax (a1 ++ a2) := by
        have h3 : hd ∈ sortByScoreDesc (uniqueMax (a1 ++ a2)) := by
          rw [hsort]
          exact List.mem_cons_self hd tl
        exact (sortByScoreDesc_perm _).mem_iff.mp h3
      have hub : hd.2 ≤ 100 :=
        foldl_updateMax_val_le 100 (a1 ++ a2) [] (by simp) hall hd hhd_mem
      have hlb : 100 ≤ hd.2 := by
        have hsorted := sortByScoreDesc_sorted (uniqueMax (a1 ++ a2))
        rw [hsort] at hmem2 hsorted
        rcases List.mem_cons.mp hmem2 with heq | hin
        · rw [← heq]
        · exact (List.sorted_cons.mp hsorted).1 _ hin
      exact le_antisymm hub hlb

set_option maxRecDepth 8192 in
/-- C6 counterexample: the query "aspirin" matches the single candidate
"Aspirin" exactly up to case, yet the returned score is 8830/91 ≈ 97.03, not
100: every scorer is case-sensitive and no query variation reproduces the
candidate's capitalisation.  (The best component scores are the full ratio
600/7 and the partial ratio 1200/13 from the "spirin" edge alignment, fused
and boosted to 7920/91 + 10.) -/
theorem find_best_matches_case_counterexample :
    lowerStr "aspirin" = lowerStr "Aspirin" ∧
    "aspirin" ≠ "Aspirin" ∧
    find_best_matches "aspirin" ["Aspirin"] 1 = [("Aspirin", 8830/91)] ∧
    ((8830 : ℚ)/91 ≠ 100) := by
  refine ⟨by decide, by decide, by with_unfolding_all rfl, by norm_num⟩

/-- Witness for the amended C6 at a concrete input: re-resolving the
canonical name "warfarin" against a catalog containing it returns it with
score 100. -/
theorem find_best_matches_exact_witness :
    ∃ c s, find_best_matches "warfarin" ["warfarin"] 1 = [(c, s)] ∧ s = 100 :=
  find_best_matches_exact "warfarin" ["warfarin"] (by decide) (by decide)

/-! ## C7: the fallback path of the matcher -/

/-- C7: the caller of the guarded matcher never observes an exception — the
entry point is total, returning the `_simple_string_match` fallback when the
composite-scoring path fails internally and the composite result otherwise —
and the fallback scores by exactly the claimed fixed tiers: 100 for a
case-insensitive exact match, 95/85 for an equal-length match with one/two
differing characters, 90 for a candidate starting with the query, 80 for the
query inside the candidate, 70 for the candidate inside the query, no match
otherwise; every returned pair carries a candidate with its tier score. -/
theorem matcher_fallback_tiers (query : String) (candidates : List String)
    (limit : Nat) (internalFailure : Bool) :
    (internalFailure = true →
      find_best_matches_guarded query candidates limit internalFailure =
        simple_string_match query candidates limit) ∧
    (internalFailure = false →
      find_best_matches_guarded query candidates limit internalFailure =
        find_best_matches query candidates limit) ∧
    (∀ p ∈ simple_string_match query candidates limit,
      p.1 ∈ candidates ∧ simpleScore query.data p.1.data = some p.2) ∧
    (∀ q c : List Char,
      (q.map Char.toLower = c.map Char.toLower → simpleScore q c = some 100) ∧
      (q.map Char.toLower ≠ c.map Char.toLower →
        (q.map Char.toLower).length = (c.map Char.toLower).length →
        ((q.map Char.toLower).zip (c.map Char.toLower)).countP
            (fun p => decide (p.1 ≠ p.2)) = 1 →
        simpleScore q c = some 95) ∧
      (q.map Char.toLower ≠ c.map Char.toLower →
        (q.map Char.toLower).length = (c.map Char.toLower).length →
        ((q.map Char.toLower).zip (c.map Char.toLower)).countP
            (fun p => decide (p.1 ≠ p.2)) = 2 →
        simpleScore q c = some 85) ∧
      ((q.map Char.toLower).length ≠ (c.map Char.toLower).length →
        (q.map Char.toLower).isPrefixOf (c.map Char.toLower) = true →
        simpleScore q c = some 90) ∧
      ((q.map Char.toLower).length ≠ (c.map Char.toLower).length →
        (q.map Char.toLower).isPrefixOf (c.map Char.toLower) = false →
        containsSub (c.map Char.toLower) (q.map Char.toLower) = true →
        simpleScore q c = some 80) ∧
      ((q.map Char.toLower).length ≠ (c.map Char.toLower).length →
        (q.map Char.toLower).isPrefixOf (c.map Char.toLower) = false →
        containsSub (c.map Char.toLower) (q.map Char.toLower) = false →
        containsSub (q.map Char.toLower) (c.map Char.toLower) = true →
        simpleScore q c = some 70)) := by
  refine ⟨?_, ?_, ?_, ?_⟩
  · intro h
    unfold find_best_matches_guarded
    rw [if_pos h]
  · intro h
    unfold find_best_matches_guarded
    rw [h]
    rfl
  · intro p hp
    unfold simple_string_match at hp
    have hp2 := List.take_subset _ _ hp
    have hp3 := (sortByScoreDesc_perm _).mem_iff.mp hp2
    rcases List.mem_filterMap.mp hp3 with ⟨c, hc, heq⟩
    rcases Option.map_eq_some'.mp heq with ⟨s, hs, hps⟩
    rw [← hps]
    exact ⟨hc, hs⟩
  · intro q c
    have hne : ∀ (h : (q.map Char.toLower).length ≠ (c.map Char.toLower).length),
        q.map Char.toLower ≠ c.map Char.toLower :=
      fun h he => h (congrArg List.length he)
    refine ⟨?_, ?_, ?_, ?_, ?_, ?_⟩
    · intro h
      unfold simpleScore
      rw [if_pos h]
    · intro h1 h2 h3
      unfold simpleScore
      rw [if_neg h1, if_pos h2, if_pos h3]
    · intro h1 h2 h3
      unfold simpleScore
      rw [if_neg h1, if_pos h2, if_neg (by rw [h3]; norm_num), if_pos h3]
    · intro h1 h2
      unfold simpleScore
      rw [if_neg (hne h1), if_neg h1, if_pos h2]
    · intro h1 h2 h3
      unfold simpleScore
      rw [if_neg (hne h1), if_neg h1, if_neg (by simp [h2]), if_pos h3]
    · intro h1 h2 h3 h4
      unfold simpleScore
      rw [if_neg (hne h1), if_neg h1, if_neg (by simp [h2]), if_neg (by simp [h3]), if_pos h4]

end DietRx
